import Mathlib

/-!
# Verification of the fixie-data path registry (`fixie_data/paths.py`)

A shallow embedding of the per-user path registry: the load/dump helpers,
the pending-record reconciler (`resolve_pending_paths`), the query layer
(`listpaths`, `info`, `_ensure_file`, `fetch`, `delete`) and the garbage
collector (`gc`).  Filesystem state (registry file, pending files, artifact files)
and the advisory lock are made explicit in a state record that every
operation threads through.

Numeric conventions: the source stores timestamps and holding durations as
Python floats.  They are modeled here as integers together with an explicit
positive-infinity constructor (`FVal.inf`); every operation the source
performs on these quantities — subtraction, order comparison, and the
`float('inf')` sentinel — is preserved exactly by this model.

Python exceptions that escape an operation are modeled as `Except.error`;
an operation that returns normally produces `Except.ok` carrying its Python
return value together with the updated filesystem state.
-/

namespace FixiePaths

/-- A Python float as used for `holding` values: a finite number or `inf`. -/
inductive FVal
  | fin (x : Int)
  | inf
deriving DecidableEq, Repr

/-- The `age >= holding` comparison from `gc` (a finite age is never `>= inf`). -/
def FVal.expired (age : Int) : FVal → Bool
  | .fin x => x ≤ age
  | .inf => false

/-- The serialized form of a `holding` field inside a JSON file: a JSON
number (possibly the JSON `Infinity` literal, hence an `FVal`), a string
holding a finite numeral, the string `"inf"`, or absent. -/
inductive StoredHolding
  | num (v : FVal)
  | numStr (x : Int)
  | infStr
  | absent
deriving DecidableEq, Repr

/-- Model of `float(info.get('holding', 'inf'))`: the normalization applied by
`_load_user_paths` and `gc` — an absent field defaults to the string
`'inf'`, and `float` maps `'inf'` to positive infinity and a numeral
(number or numeric string) to its value. -/
def pyFloat : StoredHolding → FVal
  | .num v => v
  | .numStr x => .fin x
  | .infStr => .inf
  | .absent => .inf

/-- Python exceptions that the source lets escape. -/
inductive PyErr
  | jsonError
  | keyError
  | statError
deriving DecidableEq, Repr

/-- A registry entry after loading (`holding` already normalized to a float). -/
structure Entry where
  path : String
  file : String
  user : String
  jobid : Int
  created : Int
  holding : FVal
deriving DecidableEq, Repr

/-- A registry entry as serialized in the user's JSON paths file. -/
structure StoredEntry where
  path : String
  file : String
  user : String
  jobid : Int
  created : Int
  holding : StoredHolding
deriving DecidableEq, Repr

/-- Model of `info['holding'] = float(info.get('holding', 'inf'))` on one entry. -/
def normEntry (e : StoredEntry) : Entry :=
  { path := e.path, file := e.file, user := e.user, jobid := e.jobid,
    created := e.created, holding := pyFloat e.holding }

/-- Serializing a loaded entry back to disk (`json.dump` writes the float). -/
def storeEntry (e : Entry) : StoredEntry :=
  { path := e.path, file := e.file, user := e.user, jobid := e.jobid,
    created := e.created, holding := .num e.holding }

/-- The content of a pending-path file: a JSON record (with the keys
`resolve_pending_paths` reads; `holding` may be stored in any serialized
form, `absent` standing for a record with no `holding` key), or malformed
content on which `json.load` raises. -/
structure PendingRec where
  path : String
  file : String
  user : String
  jobid : Int
  holding : StoredHolding
deriving DecidableEq, Repr

/-- A pending file either parses to a record or makes `json.load` raise. -/
inductive PendingContent
  | record (r : PendingRec)
  | malformed
deriving DecidableEq, Repr

/-! ## Python dict operations on association lists

JSON objects and Python dicts preserve insertion order; both are modeled
as association lists with unique keys kept in insertion order. -/

/-- Lookup `d[k]` / `d.get(k)`: first binding of `k`. -/
def dget {α : Type} (k : String) : List (String × α) → Option α
  | [] => none
  | (k', v) :: r => if k' = k then some v else dget k r

/-- Assignment `d[k] = v`: overwrite in place if the key exists, else append. -/
def dinsert {α : Type} (k : String) (v : α) : List (String × α) → List (String × α)
  | [] => [(k, v)]
  | (k', v') :: r => if k' = k then (k, v) :: r else (k', v') :: dinsert k v r

/-- Update `d.update(n)`: insert every binding of `n`, in order, into `d`. -/
def dupdate {α : Type} (d n : List (String × α)) : List (String × α) :=
  n.foldl (fun acc kv => dinsert kv.1 kv.2 acc) d

/-- Keys `d.keys()` of a dict, in insertion order. -/
def dkeys {α : Type} (d : List (String × α)) : List String :=
  d.map Prod.fst

/-! ## Filesystem state -/

/-- The filesystem state a single user's operations touch:
  * `registry` — the user's `$FIXIE_PATHS_DIR/user.json` file (`none` if absent);
  * `pendings` — the `user*-pending-path.json` files, as `glob.glob`
    enumerates them (filename and parsed content);
  * `artifacts` — the existing artifact files, each with its `st_ctime`;
  * `removeFails` — filenames on which `os.remove` raises;
  * `locks` — the stream of outcomes of successive `flock` acquisitions
    (`false` = timeout, `lockfd == 0`); an exhausted stream acquires. -/
structure FS where
  registry : Option (List (String × StoredEntry))
  pendings : List (String × PendingContent)
  artifacts : List (String × Int)
  removeFails : List String
  locks : List Bool
deriving DecidableEq, Repr

/-- Acquire the next lock outcome from the stream. -/
def nextLock : List Bool → Bool × List Bool
  | [] => (true, [])
  | b :: r => (b, r)

/-- Model of `os.path.isfile(f)` over the artifact table. -/
def isfile (arts : List (String × Int)) (f : String) : Bool :=
  (dget f arts).isSome

/-- Model of `os.stat(f).st_ctime`; raises (`FileNotFoundError`) if `f` is absent. -/
def statCtime (arts : List (String × Int)) (f : String) : Except PyErr Int :=
  match dget f arts with
  | some t => .ok t
  | none => .error .statError

/-- Model of `os.remove(f)` on the artifact table (the success case). -/
def removeArt (f : String) (arts : List (String × Int)) : List (String × Int) :=
  arts.filter fun a => decide (a.1 ≠ f)

/-- Model of Python's `str(e)` for an `OSError` on file `f` (the exact text
is opaque in the source; only its presence matters). -/
def osErrStr (f : String) : String :=
  "OSError on " ++ f

/-- Python's `repr` of a simple string, as produced by `'{0!r}'.format`. -/
def pyrepr (s : String) : String :=
  "\x27" ++ s ++ "\x27"

/-! ## `_load_user_paths` and `_dump_user_paths` -/

/-- Model of `_load_user_paths(user)` (with `raise_errors=False`): under the user's
lock, `none` if the lock was not acquired (`lockfd == 0`); otherwise the
deserialized registry with every `holding` normalized by `float`, or `{}`
if the registry file does not exist. -/
def load_user_paths (fs : FS) : Option (List (String × Entry)) × FS :=
  let (lk, locks') := nextLock fs.locks
  let fs' := { fs with locks := locks' }
  if lk then
    match fs.registry with
    | some reg => (some (reg.map fun kv => (kv.1, normEntry kv.2)), fs')
    | none => (some [], fs')
  else
    (none, fs')

/-- Model of `_dump_user_paths(user, paths)` (with `raise_errors=False`): under the
user's lock, overwrite the registry file and return `true`; return `false`
if the lock was not acquired. -/
def dump_user_paths (paths : List (String × Entry)) (fs : FS) : Bool × FS :=
  let (lk, locks') := nextLock fs.locks
  let fs' := { fs with locks := locks' }
  if lk then
    (true, { fs' with registry := some (paths.map fun kv => (kv.1, storeEntry kv.2)) })
  else
    (false, fs')

/-! ## `resolve_pending_paths` -/

/-- Reading one pending file inside the `for fname in files` loop of
`resolve_pending_paths`: `json.load` (raises on malformed content), then
`new_path['holding'] = float(new_path['holding'])` (KeyError if absent),
then `new_path['created'] = os.stat(new_path['file']).st_ctime` (raises if
the referenced artifact does not exist). -/
def readPending (arts : List (String × Int)) : PendingContent → Except PyErr Entry
  | .malformed => .error .jsonError
  | .record r =>
    match r.holding with
    | .absent => .error .keyError
    | h =>
      match statCtime arts r.file with
      | .error e => .error e
      | .ok t =>
        .ok { path := r.path, file := r.file, user := r.user, jobid := r.jobid,
              created := t, holding := pyFloat h }

/-- The `new_paths` accumulation loop: each record is keyed by its `path`,
later files overwriting earlier ones. -/
def buildNewPaths (arts : List (String × Int)) :
    List (String × PendingContent) → List (String × Entry) →
    Except PyErr (List (String × Entry))
  | [], acc => .ok acc
  | (_, c) :: rest, acc =>
    match readPending arts c with
    | .error e => .error e
    | .ok r => buildNewPaths arts rest (dinsert r.path r acc)

/-- Model of `resolve_pending_paths(user)`: with no pending files, defer to
`_load_user_paths`.  Otherwise read every pending file into `new_paths`,
load the registry (returning `None` and leaving the pending files in place
if the lock was not acquired), merge with `paths.update(new_paths)`, dump
(its boolean result is discarded by the source), delete every pending
file, and return the merged mapping. -/
def resolve_pending_paths (fs : FS) :
    Except PyErr (Option (List (String × Entry)) × FS) :=
  if fs.pendings.isEmpty then
    .ok (load_user_paths fs)
  else
    match buildNewPaths fs.artifacts fs.pendings [] with
    | .error e => .error e
    | .ok new_paths =>
      match load_user_paths fs with
      | (none, fs1) => .ok (none, fs1)
      | (some paths, fs1) =>
        let merged := dupdate paths new_paths
        let (_, fs2) := dump_user_paths merged fs1
        .ok (some merged, { fs2 with pendings := [] })

/-! ## Shell-glob patterns and Python `sorted`

`listpaths` and `info` filter with `re.compile(fnmatch.translate(pattern))`
and `r.match(p)`; `fnmatch.translate` wraps the glob in `(?s: ... )\Z`, so
the compiled regex matches the full string.  The glob sublanguage the
source exercises (`*`, `?`, literals) is modeled directly; a pattern on
which `re.compile` raises is represented by the `malformed` constructor. -/

/-- One shell-glob token. -/
inductive GTok
  | lit (c : Char)
  | star
  | anyc
deriving DecidableEq, Repr

/-- A pattern argument: a compiled glob, or one on which `re.compile` raises. -/
inductive GPattern
  | glob (g : List GTok)
  | malformed
deriving DecidableEq, Repr

/-- Full-string glob matching (the `(?s:...)\Z` regex of `fnmatch.translate`),
by structural recursion on a fuel bound: every recursive call shrinks the
pattern or the string, so `ts.length + s.length + 1` units of fuel always
suffice and the zero-fuel branch is unreachable from `globMatch`. -/
def globMatchF : Nat → List GTok → List Char → Bool
  | 0, _, _ => false
  | _ + 1, [], [] => true
  | _ + 1, [], _ :: _ => false
  | _ + 1, .lit _ :: _, [] => false
  | f + 1, .lit c :: ts, d :: ds => c = d && globMatchF f ts ds
  | _ + 1, .anyc :: _, [] => false
  | f + 1, .anyc :: ts, _ :: ds => globMatchF f ts ds
  | f + 1, .star :: ts, [] => globMatchF f ts []
  | f + 1, .star :: ts, d :: ds => globMatchF f ts (d :: ds) || globMatchF f (.star :: ts) ds

/-- Glob matching against a token list and character list. -/
def globMatch (ts : List GTok) (s : List Char) : Bool :=
  globMatchF (ts.length + s.length + 1) ts s

/-- Whether a path string matches a glob (`r.match(p) is not None`). -/
def gmatches (g : List GTok) (s : String) : Bool :=
  globMatch g s.toList

/-- Python string comparison: lexicographic on code points. -/
def lexLe : List Char → List Char → Bool
  | [], _ => true
  | _ :: _, [] => false
  | a :: as, b :: bs =>
    if a.toNat < b.toNat then true
    else if b.toNat < a.toNat then false
    else lexLe as bs

/-- Comparison `a <= b` on Python strings. -/
def strLe (a b : String) : Bool :=
  lexLe a.toList b.toList

/-- Insert into a sorted list (helper for `pySorted`). -/
def insSorted {α : Type} (le : α → α → Bool) (x : α) : List α → List α
  | [] => [x]
  | y :: ys => if le x y then x :: y :: ys else y :: insSorted le x ys

/-- Python's `sorted`/`list.sort`: a stable comparison sort.  Stability is
irrelevant where the source sorts (distinct keys under a total order), so
insertion sort computes the same list. -/
def pySorted {α : Type} (le : α → α → Bool) : List α → List α
  | [] => []
  | x :: xs => insSorted le x (pySorted le xs)

/-! ## `listpaths` -/

/-- Model of `listpaths(user, pattern)`.  The `pattern` argument: `none` models a
falsy pattern (`None` or the empty string, on which the source skips
filtering); `some` a truthy one. -/
def listpaths (fs : FS) (pattern : Option GPattern) :
    Except PyErr (Option (List String) × Bool × String × FS) :=
  match resolve_pending_paths fs with
  | .error e => .error e
  | .ok (none, fs') => .ok (none, false, "User paths file could not be loaded.", fs')
  | .ok (some infos, fs') =>
    let paths := pySorted strLe (dkeys infos)
    match pattern with
    | none => .ok (some paths, true, "Paths listed", fs')
    | some .malformed => .ok (none, false, "Could not compile path pattern", fs')
    | some (.glob g) =>
      .ok (some (paths.filter fun p => gmatches g p), true, "Paths listed", fs')

/-! ## `info` -/

/-- Model of `info(user, paths, pattern)`.  The `paths` selector is modeled as a
list of path names, `[]` standing for a falsy argument (`None`, `''` or
`[]`); a single string argument is the singleton list (`paths = [paths]`).
The `pattern` selector is as in `listpaths`.  The source's both-selectors
guard is commented out, so a non-empty `paths` takes the first branch and
`pattern` is ignored. -/
def info (fs : FS) (pathsSel : List String) (pattern : Option GPattern) :
    Except PyErr (Option (List Entry) × Bool × String × FS) :=
  match resolve_pending_paths fs with
  | .error e => .error e
  | .ok (none, fs') => .ok (none, false, "User paths file could not be loaded.", fs')
  | .ok (some userpaths, fs') =>
    if !pathsSel.isEmpty then
      .ok (some (pathsSel.filterMap fun p => dget p userpaths), true, "Info found", fs')
    else
      match pattern with
      | some .malformed => .ok (none, false, "Could not compile path pattern", fs')
      | some (.glob g) =>
        let sel := (userpaths.filter fun kv => gmatches g kv.1).map Prod.snd
        .ok (some (pySorted (fun a b => strLe a.path b.path) sel), true, "Info found", fs')
      | none =>
        let vals := userpaths.map Prod.snd
        .ok (some (pySorted (fun a b => strLe a.path b.path) vals), true, "Info found", fs')

/-! ## `_ensure_file` and `delete` -/

/-- The result of `_ensure_file`: the source's 4-tuple
`(filename, userpaths, status, msg)` where `status = False` forces the
first two components to `None`, represented as a sum — `inl msg` for the
failure tuple `(None, None, False, msg)`, `inr (filename, userpaths)` for
the success tuple `(filename, userpaths, True, '')`. -/
def ensure_file (fs : FS) (path : String) :
    Except PyErr ((String ⊕ (String × List (String × Entry))) × FS) :=
  match resolve_pending_paths fs with
  | .error e => .error e
  | .ok (none, fs') => .ok (.inl "User paths file could not be loaded.", fs')
  | .ok (some userpaths, fs') =>
    match dget path userpaths with
    | none => .ok (.inl ("Path " ++ pyrepr path ++ " does not exist"), fs')
    | some einfo =>
      let filename := einfo.file
      if filename = "" then
        .ok (.inl ("Path " ++ pyrepr path ++ " does not not have a file"), fs')
      else if !(isfile fs'.artifacts filename) then
        .ok (.inl ("Path file " ++ pyrepr filename ++ " does not exist or is a directory"), fs')
      else
        .ok (.inr (filename, userpaths), fs')

/-- Model of `delete(user, path)`: resolve via `_ensure_file`; `os.remove` the
backing artifact (an exception is caught and reported); delete the entry
and dump; a failed dump is reported with the inconsistent-state message. -/
def delete (fs : FS) (path : String) : Except PyErr (Bool × String × FS) :=
  match ensure_file fs path with
  | .error e => .error e
  | .ok (.inl msg, fs') => .ok (false, msg, fs')
  | .ok (.inr (filename, userpaths), fs') =>
    if filename ∈ fs'.removeFails then
      .ok (false, osErrStr filename ++ "\n\n" ++ "Could not remove path " ++ path, fs')
    else
      let fs1 := { fs' with artifacts := removeArt filename fs'.artifacts }
      let userpaths' := userpaths.filter fun kv => decide (kv.1 ≠ path)
      let (ok, fs2) := dump_user_paths userpaths' fs1
      if ok then
        .ok (true, "File removed", fs2)
      else
        .ok (false, "Removed file " ++ pyrepr filename ++ " but could not remove path entry "
                      ++ pyrepr path ++ ", system is in inconsistent state.", fs2)

/-! ## `gc` -/

/-- The filesystem state `gc` touches: every `*.json` file under the paths
directory in `glob.iglob` order (filename and parsed registry content —
pending files, recognized by their name suffix, are skipped before being
read), the artifact table, the `os.remove` failure set, and the `flock`
outcome stream (one acquisition per non-pending registry file). -/
structure GCFS where
  files : List (String × List (String × StoredEntry))
  artifacts : List (String × Int)
  removeFails : List String
  locks : List Bool
deriving DecidableEq, Repr

/-- The result of `gc`: the `(not msg, msg)` return value, the final
content of every registry file (in the original order), the names of the
files that were re-serialized, and the final artifact table. -/
structure GCResult where
  status : Bool
  msg : String
  files : List (String × List (String × StoredEntry))
  writes : List String
  artifacts : List (String × Int)
deriving DecidableEq, Repr

/-- Model of `user_path_file.endswith('-pending-path.json')`. -/
def isPendingName (name : String) : Bool :=
  List.isSuffixOf "-pending-path.json".toList name.toList

/-- The per-entry loop of `gc`: for each entry compute
`age = now - info['created']` and `holding = float(info.get('holding', 'inf'))`;
if `age >= holding` and the artifact exists, `os.remove` it — on failure
append a message and keep the entry, on success record the path for
deletion.  Returns `(paths_to_del, artifacts, msg)` (paths in entry
order; the source collects them in a `set`, but they are only used to
delete keys from the dict, for which order is irrelevant). -/
def gc_entries (now : Int) (fails : List String) :
    List (String × StoredEntry) → List (String × Int) → String →
    List String × List (String × Int) × String
  | [], arts, msg => ([], arts, msg)
  | (path, einfo) :: rest, arts, msg =>
    let age := now - einfo.created
    let holding := pyFloat einfo.holding
    let fname := einfo.file
    if holding.expired age && isfile arts fname then
      if fname ∈ fails then
        gc_entries now fails rest arts
          (msg ++ osErrStr fname ++ "\nCould not delete file " ++ fname ++ "\n\n")
      else
        let (dels, arts', msg') := gc_entries now fails rest (removeArt fname arts) msg
        (path :: dels, arts', msg')
    else
      gc_entries now fails rest arts msg

/-- One non-pending registry file under its acquired lock: sweep the
entries; if no path was deleted the file is left alone, otherwise the
deleted keys are removed and the file re-serialized.  Returns the new
content, the updated artifact table, the accumulated message, and whether
the file was written. -/
def gc_file (now : Int) (fails : List String)
    (paths : List (String × StoredEntry)) (arts : List (String × Int)) (msg : String) :
    List (String × StoredEntry) × List (String × Int) × String × Bool :=
  let (dels, arts', msg') := gc_entries now fails paths arts msg
  if dels.isEmpty then
    (paths, arts', msg', false)
  else
    (paths.filter fun kv => decide (kv.1 ∉ dels), arts', msg', true)

/-- The `for user_path_file in glob.iglob(pattern)` loop of `gc`: skip
pending-named files; acquire the file's lock (on failure append a message
and continue with the next file); otherwise sweep the file.  Returns the
final per-file contents with their written flags, the artifact table, and
the message. -/
def gc_files (now : Int) (fails : List String) :
    List (String × List (String × StoredEntry)) → List (String × Int) →
    List Bool → String →
    List (String × List (String × StoredEntry) × Bool) × List (String × Int) × String
  | [], arts, _, msg => ([], arts, msg)
  | (name, paths) :: rest, arts, locks, msg =>
    if isPendingName name then
      let (out, arts', msg') := gc_files now fails rest arts locks msg
      ((name, paths, false) :: out, arts', msg')
    else
      let (lk, locks') := nextLock locks
      if lk then
        let (paths', arts1, msg1, wrote) := gc_file now fails paths arts msg
        let (out, arts', msg') := gc_files now fails rest arts1 locks' msg1
        ((name, paths', wrote) :: out, arts', msg')
      else
        let (out, arts', msg') :=
          gc_files now fails rest arts locks' (msg ++ name ++ " could not be loaded\n\n")
        ((name, paths, false) :: out, arts', msg')

/-- Model of `gc()`: sweep every registry file and return `(not msg, msg)`. -/
def gc (now : Int) (w : GCFS) : GCResult :=
  let (out, arts', msg) := gc_files now w.removeFails w.files w.artifacts w.locks ""
  { status := msg = "", msg := msg,
    files := out.map fun fcw => (fcw.1, fcw.2.1),
    writes := (out.filter fun fcw => fcw.2.2).map fun fcw => fcw.1,
    artifacts := arts' }

/-! ## Auxiliary specification functions -/

/-- The last binding of a key in an association list (the binding that wins
when the list is folded into a dict). -/
def dgetLast {α : Type} (k : String) : List (String × α) → Option α
  | [] => none
  | (k', v) :: r =>
    match dgetLast k r with
    | some w => some w
    | none => if k' = k then some v else none

/-- A pending file that `resolve_pending_paths` can read to completion:
parseable content, a `holding` key, and an existing referenced artifact. -/
def wfPendingB (arts : List (String × Int)) (nc : String × PendingContent) : Bool :=
  match nc.2 with
  | .malformed => false
  | .record r => !(decide (r.holding = .absent)) && isfile arts r.file

/-- The entry a well-formed pending record reconciles to: `holding`
normalized by `float`, `created` stamped from the artifact's ctime. -/
def stampPending (arts : List (String × Int)) (r : PendingRec) : Entry :=
  { path := r.path, file := r.file, user := r.user, jobid := r.jobid,
    created := (dget r.file arts).getD 0, holding := pyFloat r.holding }

/-- The `new_paths` bindings in pending-file enumeration order (before the
dict keying that lets later files overwrite earlier ones). -/
def stampedAssoc (arts : List (String × Int)) (files : List (String × PendingContent)) :
    List (String × Entry) :=
  files.filterMap fun nc =>
    match nc.2 with
    | .record r => some (r.path, stampPending arts r)
    | .malformed => none

/-- The `new_paths` dict built by the pending-file loop: the stamped
bindings keyed into a dict, later files overwriting earlier ones. -/
def newPathsOf (arts : List (String × Int)) (files : List (String × PendingContent)) :
    List (String × Entry) :=
  dupdate [] (stampedAssoc arts files)

/-- The last pending record for a given path, in pending-file enumeration
order (the collision winner of the `new_paths` dict). -/
def lastRecFor (p : String) : List (String × PendingContent) → Option PendingRec
  | [] => none
  | nc :: rest =>
    match lastRecFor p rest with
    | some r => some r
    | none =>
      match nc.2 with
      | .record r => if r.path = p then some r else none
      | .malformed => none

/-- Substring search (character-list prefix at every position). -/
def listPref : List Char → List Char → Bool
  | [], _ => true
  | _ :: _, [] => false
  | a :: as, b :: bs => a = b && listPref as bs

/-- Whether `needle` occurs inside the list. -/
def hasSub (needle : List Char) : List Char → Bool
  | [] => listPref needle []
  | c :: rest => listPref needle (c :: rest) || hasSub needle rest

/-- Python's `needle in s` on strings. -/
def strHasSub (needle s : String) : Bool :=
  hasSub needle.toList s.toList

/-! ## `fetch` -/

/-- Model of `os.path.relpath(filename, ENV['FIXIE_SIMS_DIR'])` as
`_fetch_url` uses it: a filename under the simulations directory has the
directory prefix and its separator stripped; any other filename is
returned unchanged (`..` traversal is not modeled — the registry stores
absolute paths under the simulations directory). -/
def relpathSims (simsDir filename : String) : String :=
  if listPref (simsDir ++ "/").toList filename.toList then
    String.mk (filename.toList.drop (simsDir ++ "/").toList.length)
  else
    filename

/-- Model of `_fetch_url(filename)`: the retrieval locator
`'/fetch?' + urllib.parse.urlencode({'file': relname})` together with an
empty message; it never raises.  Percent-escaping is not modeled (the
stored names are URL-safe), so `urlencode` contributes the literal
`file=` prefix before the relative name. -/
def fetch_url (simsDir filename : String) : Option String × String :=
  (some ("/fetch?" ++ "file=" ++ relpathSims simsDir filename), "")

/-- Model of `_fetch_bytes(filename)`: read the artifact's bytes.  The
byte store maps readable filenames to their content; on a filename
outside it `open`/`read` raises, which the source's `except` clause
catches and converts into `(None, str(e) + '\n\nFailed to read file: '
+ filename)`. -/
def fetch_bytes (contents : List (String × String)) (filename : String) :
    Option String × String :=
  match dget filename contents with
  | some b => (some b, "")
  | none => (none, osErrStr filename ++ "\n\nFailed to read file: " ++ filename)

/-- Model of `fetch(user, path, url)`: resolve the path via
`_ensure_file`; on success apply `_fetch_url` (for `url=True`) or
`_fetch_bytes`, returning a failure triple when the fetcher's payload is
`None` and `(payload, True, 'File fetched')` otherwise.  `simsDir` is
`ENV['FIXIE_SIMS_DIR']` and `contents` the artifact byte store. -/
def fetch (simsDir : String) (contents : List (String × String)) (fs : FS)
    (path : String) (url : Bool) :
    Except PyErr (Option String × Bool × String × FS) :=
  match ensure_file fs path with
  | .error e => .error e
  | .ok (.inl msg, fs') => .ok (none, false, msg, fs')
  | .ok (.inr (filename, _userpaths), fs') =>
    let (url_or_file, msg) :=
      if url then fetch_url simsDir filename else fetch_bytes contents filename
    match url_or_file with
    | none => .ok (none, false, msg, fs')
    | some v => .ok (some v, true, "File fetched", fs')

/-- Eligibility of an entry for removal by `gc`, relative to an artifact
table: its holding has expired, its artifact exists, and `os.remove` will
succeed on it. -/
def gcEligB (now : Int) (arts : List (String × Int)) (fails : List String)
    (e : StoredEntry) : Bool :=
  (pyFloat e.holding).expired (now - e.created) && isfile arts e.file
    && !(decide (e.file ∈ fails))

/-- An entry on which `gc` attempts the artifact deletion and it raises. -/
def gcFailB (now : Int) (arts : List (String × Int)) (fails : List String)
    (e : StoredEntry) : Bool :=
  (pyFloat e.holding).expired (now - e.created) && isfile arts e.file
    && decide (e.file ∈ fails)

/-- The message `gc` appends when deleting an artifact raises. -/
def gcErrPiece (f : String) : String :=
  osErrStr f ++ "\nCould not delete file " ++ f ++ "\n\n"

/-- The messages one registry file's sweep appends, relative to a fixed
artifact table. -/
def gcErrs (now : Int) (arts : List (String × Int)) (fails : List String) :
    List (String × StoredEntry) → String
  | [] => ""
  | (_, e) :: rest =>
    (if gcFailB now arts fails e then gcErrPiece e.file else "") ++ gcErrs now arts fails rest

/-- The messages the whole sweep accumulates (all locks acquired). -/
def gcAllErrs (now : Int) (arts : List (String × Int)) (fails : List String) :
    List (String × List (String × StoredEntry)) → String
  | [] => ""
  | fc :: rest => gcErrs now arts fails fc.2 ++ gcAllErrs now arts fails rest

/-- The artifact files the whole sweep deletes. -/
def gcRemovedAll (now : Int) (arts : List (String × Int)) (fails : List String)
    (files : List (String × List (String × StoredEntry))) : List String :=
  (files.map fun fc =>
    (fc.2.filter fun kv => gcEligB now arts fails kv.2).map fun kv => kv.2.file).flatten

/-! ## Concrete fixtures

Small worlds used to instantiate the theorems below, mirroring the
scenarios of the repository's own tests (`_init_user_paths` and
`_init_pending_paths` in `tests/test_paths.py`). -/

/-- Entry `/as`: infinite holding, created at time 1000. -/
def asE : StoredEntry :=
  { path := "/as", file := "f0", user := "u", jobid := 0, created := 1000, holding := .infStr }

/-- Entry `/you`: zero holding, created at time 1000. -/
def youE : StoredEntry :=
  { path := "/you", file := "f1", user := "u", jobid := 1, created := 1000, holding := .num (.fin 0) }

/-- Entry `/wish`: holding 42, created at time 1000. -/
def wishE : StoredEntry :=
  { path := "/wish", file := "f2", user := "u", jobid := 2, created := 1000, holding := .num (.fin 42) }

/-- The three-entry registry of the test scenarios. -/
def regThree : List (String × StoredEntry) := [("/as", asE), ("/you", youE), ("/wish", wishE)]

/-- A well-formed pending record for `/p1` (numeric-string holding). -/
def recA : PendingRec :=
  { path := "/p1", file := "a1", user := "u", jobid := 7, holding := .numStr 5 }

/-- A second well-formed pending record for the same path `/p1`. -/
def recB : PendingRec :=
  { path := "/p1", file := "a2", user := "u", jobid := 8, holding := .infStr }

/-- A prior registry entry for `/r1`. -/
def rE : StoredEntry :=
  { path := "/r1", file := "b1", user := "u", jobid := 1, created := 50, holding := .num (.fin 3) }

/-- One pending record over a one-entry registry; both locks available. -/
def fsMergeW : FS :=
  { registry := some [("/r1", rE)],
    pendings := [("u-0-pending-path.json", .record recA)],
    artifacts := [("a1", 100)],
    removeFails := [],
    locks := [true, true] }

/-- Same world, but the dump lock acquisition fails. -/
def fsDumpFailW : FS :=
  { fsMergeW with locks := [true, false] }

/-- Two pending records for the same path `/p1`; both locks available. -/
def fsTwoPend : FS :=
  { fsMergeW with
    pendings := [("u-0-pending-path.json", .record recA), ("u-1-pending-path.json", .record recB)],
    artifacts := [("a1", 100), ("a2", 200)] }

/-- The three-entry registry with no pending files. -/
def fsL : FS :=
  { registry := some regThree, pendings := [], artifacts := [], removeFails := [], locks := [true] }

/-- A one-entry registry whose artifact exists; the dump lock fails. -/
def fsDel : FS :=
  { registry := some [("/as", asE)], pendings := [], artifacts := [("f0", 1000)],
    removeFails := [], locks := [true, false] }

/-- A world whose only pending file is malformed. -/
def fsMal : FS :=
  { registry := some [], pendings := [("u-0-pending-path.json", .malformed)],
    artifacts := [], removeFails := [], locks := [true, true] }

/-- A world whose pending record references an absent artifact. -/
def fsStat : FS :=
  { registry := some [], pendings := [("u-0-pending-path.json", .record recA)],
    artifacts := [], removeFails := [], locks := [true, true] }

/-- The three-entry registry world whose single lock acquisition fails. -/
def gcLockFailW : GCFS :=
  { files := [("u.json", regThree)],
    artifacts := [("f0", 1000), ("f1", 1000), ("f2", 1000)],
    removeFails := [],
    locks := [false] }

/-- The spec's end-to-end `gc` scenario with every artifact existing,
swept at `now = 2000` (so each entry has age 1000). -/
def gcW : GCFS :=
  { files := [("u.json", regThree)],
    artifacts := [("f0", 1000), ("f1", 1000), ("f2", 1000)],
    removeFails := [],
    locks := [true] }

/-! ## Dictionary lemmas -/

theorem dupdate_nil {α : Type} (d : List (String × α)) : dupdate d [] = d := rfl

theorem dupdate_cons {α : Type} (d : List (String × α)) (k : String) (v : α)
    (n : List (String × α)) : dupdate d ((k, v) :: n) = dupdate (dinsert k v d) n := rfl

theorem dget_dinsert_self {α : Type} (k : String) (v : α) (d : List (String × α)) :
    dget k (dinsert k v d) = some v := by
  induction d with
  | nil => simp [dinsert, dget]
  | cons kv r ih =>
    by_cases h : kv.1 = k
    · simp [dinsert, dget, h]
    · simp [dinsert, dget, h, ih]

theorem dget_dinsert_of_ne {α : Type} {k k' : String} (v : α) (d : List (String × α))
    (h : k' ≠ k) : dget k (dinsert k' v d) = dget k d := by
  induction d with
  | nil => simp [dinsert, dget, h]
  | cons kv r ih =>
    by_cases h2 : kv.1 = k'
    · simp [dinsert, dget, h2, h]
    · simp [dinsert, dget, h2, ih]

theorem dgetLast_cons {α : Type} (k k' : String) (v : α) (r : List (String × α)) :
    dgetLast k ((k', v) :: r) =
      match dgetLast k r with
      | some w => some w
      | none => if k' = k then some v else none := rfl

theorem dget_dupdate {α : Type} (k : String) (n : List (String × α)) :
    ∀ d, dget k (dupdate d n) =
      match dgetLast k n with
      | some w => some w
      | none => dget k d := by
  induction n with
  | nil => intro d; simp [dupdate_nil, dgetLast]
  | cons kv r ih =>
    intro d
    obtain ⟨k', v⟩ := kv
    rw [dupdate_cons, ih, dgetLast_cons]
    cases hr : dgetLast k r with
    | some w => rfl
    | none =>
      by_cases h : k' = k
      · subst h; simp [dget_dinsert_self]
      · simp [dget_dinsert_of_ne v d h, h]

theorem dkeys_cons {α : Type} (k' : String) (v : α) (r : List (String × α)) :
    dkeys ((k', v) :: r) = k' :: dkeys r := rfl

theorem dgetLast_isSome_iff_mem {α : Type} (k : String) (n : List (String × α)) :
    (dgetLast k n).isSome = true ↔ k ∈ dkeys n := by
  induction n with
  | nil => simp [dgetLast, dkeys]
  | cons kv r ih =>
    obtain ⟨k', v⟩ := kv
    rw [dgetLast_cons, dkeys_cons]
    cases hr : dgetLast k r with
    | some w =>
      have hk : k ∈ dkeys r := ih.mp (by simp [hr])
      simp [hk]
    | none =>
      have hk : k ∉ dkeys r := fun hm => by
        have h2 := ih.mpr hm
        rw [hr] at h2
        exact absurd h2 (by simp)
      by_cases h : k' = k
      · subst h; simp
      · simp only [h, if_false, List.mem_cons]
        constructor
        · intro hfalse; exact absurd hfalse (by simp)
        · rintro (rfl | hm2)
          · exact absurd rfl h
          · exact absurd hm2 hk

theorem dkeys_dinsert_mem {α : Type} {k : String} (v : α) {d : List (String × α)}
    (h : k ∈ dkeys d) : dkeys (dinsert k v d) = dkeys d := by
  induction d with
  | nil => simp [dkeys] at h
  | cons kv r ih =>
    obtain ⟨k₁, v₁⟩ := kv
    rw [dkeys_cons] at h ⊢
    by_cases h2 : k₁ = k
    · simp [dinsert, h2, dkeys_cons]
    · have hr : k ∈ dkeys r := by
        rcases List.mem_cons.mp h with rfl | hm
        · exact absurd rfl h2
        · exact hm
      simp [dinsert, h2, dkeys_cons, ih hr]

theorem dkeys_dinsert_not_mem {α : Type} {k : String} (v : α) {d : List (String × α)}
    (h : k ∉ dkeys d) : dkeys (dinsert k v d) = dkeys d ++ [k] := by
  induction d with
  | nil => simp [dinsert, dkeys]
  | cons kv r ih =>
    obtain ⟨k₁, v₁⟩ := kv
    rw [dkeys_cons] at h
    have h2 : k₁ ≠ k := fun hh => h (by simp [hh])
    have hr : k ∉ dkeys r := fun hm => h (by simp [hm])
    simp [dinsert, h2, dkeys_cons, ih hr]

theorem nodup_dkeys_dinsert {α : Type} (k : String) (v : α) {d : List (String × α)}
    (h : (dkeys d).Nodup) : (dkeys (dinsert k v d)).Nodup := by
  by_cases hm : k ∈ dkeys d
  · rw [dkeys_dinsert_mem v hm]; exact h
  · rw [dkeys_dinsert_not_mem v hm]
    simp [List.nodup_append, h, hm]

theorem nodup_dkeys_dupdate {α : Type} (n : List (String × α)) :
    ∀ d, (dkeys d).Nodup → (dkeys (dupdate d n)).Nodup := by
  induction n with
  | nil => intro d h; simpa [dupdate_nil] using h
  | cons kv r ih =>
    intro d h
    obtain ⟨k, v⟩ := kv
    rw [dupdate_cons]
    exact ih _ (nodup_dkeys_dinsert k v h)

theorem dgetLast_eq_dget_of_nodup {α : Type} (k : String) {d : List (String × α)}
    (h : (dkeys d).Nodup) : dgetLast k d = dget k d := by
  induction d with
  | nil => rfl
  | cons kv r ih =>
    obtain ⟨k₁, v₁⟩ := kv
    rw [dkeys_cons, List.nodup_cons] at h
    obtain ⟨hk₁, hr⟩ := h
    rw [dgetLast_cons, dget]
    by_cases h2 : k₁ = k
    · subst h2
      have : dgetLast k₁ r = none := by
        cases hl : dgetLast k₁ r with
        | none => rfl
        | some w =>
          exact absurd ((dgetLast_isSome_iff_mem k₁ r).mp (by simp [hl])) hk₁
      simp [this]
    · rw [ih hr]
      cases dget k r with
      | none => simp [h2]
      | some w => simp [h2]

theorem dget_newPathsOf (arts : List (String × Int)) (files : List (String × PendingContent))
    (k : String) :
    dget k (newPathsOf arts files) = dgetLast k (stampedAssoc arts files) := by
  rw [newPathsOf, dget_dupdate]
  cases dgetLast k (stampedAssoc arts files) with
  | none => rfl
  | some w => rfl

theorem dget_map_val {α β : Type} (k : String) (f : α → β) (l : List (String × α)) :
    dget k (l.map fun kv => (kv.1, f kv.2)) = (dget k l).map f := by
  induction l with
  | nil => simp [dget]
  | cons kv r ih =>
    by_cases h : kv.1 = k
    · simp [dget, h]
    · simp [dget, h, ih]

theorem dkeys_map_val {α β : Type} (f : α → β) (l : List (String × α)) :
    dkeys (l.map fun kv => (kv.1, f kv.2)) = dkeys l := by
  simp [dkeys]

/-! ## Reconciler lemmas -/

theorem readPending_of_wf (arts : List (String × Int)) (n : String) (c : PendingContent)
    (h : wfPendingB arts (n, c) = true) :
    ∃ r, c = .record r ∧ readPending arts c = .ok (stampPending arts r) := by
  cases c with
  | malformed => simp [wfPendingB] at h
  | record r =>
    refine ⟨r, rfl, ?_⟩
    simp only [wfPendingB, Bool.and_eq_true, Bool.not_eq_eq_eq_not, Bool.not_true,
      decide_eq_false_iff_not] at h
    obtain ⟨habs, hfile⟩ := h
    obtain ⟨t, ht⟩ : ∃ t, dget r.file arts = some t := by
      cases hd : dget r.file arts with
      | none => rw [isfile, hd] at hfile; exact absurd hfile (by simp)
      | some t => exact ⟨t, rfl⟩
    cases hh : r.holding with
    | absent => exact absurd hh habs
    | num v => simp [readPending, hh, statCtime, ht, stampPending, pyFloat]
    | numStr x => simp [readPending, hh, statCtime, ht, stampPending, pyFloat]
    | infStr => simp [readPending, hh, statCtime, ht, stampPending, pyFloat]

theorem buildNewPaths_of_wf (arts : List (String × Int)) :
    ∀ (files : List (String × PendingContent)) (acc : List (String × Entry)),
    (∀ nc ∈ files, wfPendingB arts nc = true) →
    buildNewPaths arts files acc = .ok (dupdate acc (stampedAssoc arts files)) := by
  intro files
  induction files with
  | nil => intro acc _; simp [buildNewPaths, dupdate_nil, stampedAssoc]
  | cons nc rest ih =>
    intro acc hw
    obtain ⟨n, c⟩ := nc
    obtain ⟨r, rfl, hread⟩ := readPending_of_wf arts n c (hw _ (by simp))
    have hrest : ∀ nc ∈ rest, wfPendingB arts nc = true := fun nc h => hw nc (by simp [h])
    simp only [buildNewPaths, hread]
    rw [ih _ hrest]
    have hs : stampedAssoc arts ((n, .record r) :: rest)
        = (r.path, stampPending arts r) :: stampedAssoc arts rest := by
      simp [stampedAssoc]
    rw [hs, dupdate_cons]
    have hp : (stampPending arts r).path = r.path := rfl
    rw [hp]

/-- The merge path of `resolve_pending_paths`: with pending files present
and readable and the load lock acquired, the result is the loaded registry
updated with the stamped pending records; the pending files are deleted
and the registry file is rewritten exactly when the dump lock was
acquired. -/
theorem resolve_merge_spec (fs : FS) (R : List (String × StoredEntry)) (lk2 : Bool)
    (rest : List Bool)
    (hp : fs.pendings ≠ [])
    (hw : ∀ nc ∈ fs.pendings, wfPendingB fs.artifacts nc = true)
    (hreg : fs.registry = some R)
    (hlk : fs.locks = true :: lk2 :: rest) :
    resolve_pending_paths fs =
      .ok (some (dupdate (R.map fun kv => (kv.1, normEntry kv.2))
              (newPathsOf fs.artifacts fs.pendings)),
        if lk2 then
          { fs with
            pendings := [],
            registry := some ((dupdate (R.map fun kv => (kv.1, normEntry kv.2))
                (newPathsOf fs.artifacts fs.pendings)).map fun kv => (kv.1, storeEntry kv.2)),
            locks := rest }
        else
          { fs with
            pendings := [],
            locks := rest }) := by
  have hne : fs.pendings.isEmpty = false := by
    cases hpp : fs.pendings with
    | nil => exact absurd hpp hp
    | cons a l => simp [hpp]
  rw [resolve_pending_paths]
  simp only [hne, Bool.false_eq_true, if_false]
  rw [buildNewPaths_of_wf fs.artifacts fs.pendings [] hw]
  simp only [load_user_paths, hlk, nextLock, hreg, dump_user_paths, newPathsOf]
  cases lk2 with
  | true => simp
  | false => simp

/-- The load-failure path of `resolve_pending_paths`: pending files present
and readable, but the registry lock is not acquired — the source returns
`None` and leaves the filesystem untouched (pending files intact). -/
theorem resolve_load_fail_spec (fs : FS) (rest : List Bool)
    (hp : fs.pendings ≠ [])
    (hw : ∀ nc ∈ fs.pendings, wfPendingB fs.artifacts nc = true)
    (hlk : fs.locks = false :: rest) :
    resolve_pending_paths fs = .ok (none, { fs with locks := rest }) := by
  have hne : fs.pendings.isEmpty = false := by
    cases hpp : fs.pendings with
    | nil => exact absurd hpp hp
    | cons a l => simp [hpp]
  rw [resolve_pending_paths]
  simp only [hne, Bool.false_eq_true, if_false]
  rw [buildNewPaths_of_wf fs.artifacts fs.pendings [] hw]
  rw [load_user_paths, hlk]
  simp [nextLock]

/-- Totality: `resolve_pending_paths` never raises when every pending file is
well-formed. -/
theorem resolve_ok_of_wf (fs : FS)
    (hw : ∀ nc ∈ fs.pendings, wfPendingB fs.artifacts nc = true) :
    ∃ t, resolve_pending_paths fs = .ok t := by
  by_cases hp : fs.pendings.isEmpty
  · exact ⟨load_user_paths fs, by simp [resolve_pending_paths, hp]⟩
  · rw [resolve_pending_paths]
    simp only [hp, if_false]
    rw [buildNewPaths_of_wf fs.artifacts fs.pendings [] hw]
    cases hl : load_user_paths fs with
    | mk o fs1 =>
      cases o with
      | none => exact ⟨_, rfl⟩
      | some paths => exact ⟨_, rfl⟩

theorem dgetLast_stampedAssoc (arts : List (String × Int)) (p : String) :
    ∀ files, dgetLast p (stampedAssoc arts files) = (lastRecFor p files).map (stampPending arts) := by
  intro files
  induction files with
  | nil => rfl
  | cons nc rest ih =>
    cases hc : nc.2 with
    | malformed =>
      have hs : stampedAssoc arts (nc :: rest) = stampedAssoc arts rest := by
        simp [stampedAssoc, hc]
      rw [hs, ih, lastRecFor]
      cases lastRecFor p rest with
      | some r => simp
      | none => simp [hc]
    | record r =>
      have hs : stampedAssoc arts (nc :: rest)
          = (r.path, stampPending arts r) :: stampedAssoc arts rest := by
        simp [stampedAssoc, hc]
      rw [hs, dgetLast_cons, ih, lastRecFor]
      cases lastRecFor p rest with
      | some w => simp
      | none =>
        simp only [Option.map_none, hc]
        by_cases hp : r.path = p
        · simp [hp]
        · simp [hp]

/-- The merged registry mapping, looked up at any key: the `new_paths`
binding when the key has a pending record, the loaded registry binding
otherwise. -/
theorem dget_merged (R : List (String × StoredEntry)) (arts : List (String × Int))
    (files : List (String × PendingContent)) (p : String) :
    dget p (dupdate (R.map fun kv => (kv.1, normEntry kv.2)) (newPathsOf arts files)) =
      match (lastRecFor p files).map (stampPending arts) with
      | some w => some w
      | none => (dget p R).map normEntry := by
  rw [dget_dupdate]
  have hn : (dkeys (newPathsOf arts files)).Nodup := by
    have : (dkeys ([] : List (String × Entry))).Nodup := by simp [dkeys]
    exact nodup_dkeys_dupdate _ _ this
  rw [dgetLast_eq_dget_of_nodup _ hn, dget_newPathsOf, dgetLast_stampedAssoc,
    dget_map_val]
  cases lastRecFor p files with
  | some r => rfl
  | none => rfl

/-! ## Claim theorems -/

/-- C1 (amended): with pending records present and readable, failing to
acquire the lock at the registry-load step makes `resolve_pending_paths`
abort: it returns the `None` sentinel and leaves the filesystem untouched
— in particular no pending-record file is deleted.  A failure of the
subsequent dump, however, is ignored by the source: the pending files are
deleted anyway and the merged registry is returned instead of the failure
sentinel, the registry file keeping its old content. -/
theorem reconcile_load_dump_failure (fs : FS) (R : List (String × StoredEntry))
    (rest : List Bool)
    (hp : fs.pendings ≠ [])
    (hw : ∀ nc ∈ fs.pendings, wfPendingB fs.artifacts nc = true)
    (hreg : fs.registry = some R) :
    (fs.locks = false :: rest →
      resolve_pending_paths fs = .ok (none, { fs with locks := rest })) ∧
    (fs.locks = true :: false :: rest →
      resolve_pending_paths fs =
        .ok (some (dupdate (R.map fun kv => (kv.1, normEntry kv.2))
            (newPathsOf fs.artifacts fs.pendings)),
          { fs with
            pendings := [],
            locks := rest })) := by
  constructor
  · intro hlk
    exact resolve_load_fail_spec fs rest hp hw hlk
  · intro hlk
    have h := resolve_merge_spec fs R false rest hp hw hreg hlk
    simpa using h

/-- Witness for `reconcile_load_dump_failure` at the dump-failure world. -/
theorem reconcile_load_dump_failure_witness :
    (fsDumpFailW.pendings ≠ [] ∧
      (∀ nc ∈ fsDumpFailW.pendings, wfPendingB fsDumpFailW.artifacts nc = true) ∧
      fsDumpFailW.registry = some [("/r1", rE)]) ∧
    ((fsDumpFailW.locks = false :: [] →
      resolve_pending_paths fsDumpFailW = .ok (none, { fsDumpFailW with locks := [] })) ∧
    (fsDumpFailW.locks = true :: false :: [] →
      resolve_pending_paths fsDumpFailW =
        .ok (some (dupdate (([("/r1", rE)].map fun kv => (kv.1, normEntry kv.2)))
            (newPathsOf fsDumpFailW.artifacts fsDumpFailW.pendings)),
          { fsDumpFailW with
            pendings := [],
            locks := [] }))) :=
  ⟨⟨by decide, by decide, rfl⟩,
    reconcile_load_dump_failure fsDumpFailW [("/r1", rE)] [] (by decide) (by decide) rfl⟩

/-- C1 counterexample: at a concrete world whose dump-lock acquisition
fails, `resolve_pending_paths` does not abort — it returns the merged
registry (not the `None` failure sentinel) and deletes the pending file,
contradicting the claim that any failure from the load step onward aborts
without deleting pending records and propagates the failure sentinel. -/
theorem reconcile_dump_failure_cex :
    resolve_pending_paths fsDumpFailW =
      .ok (some [("/r1", normEntry rE),
            ("/p1", { path := "/p1", file := "a1", user := "u", jobid := 7,
                      created := 100, holding := .fin 5 })],
        { registry := some [("/r1", rE)],
          pendings := [],
          artifacts := [("a1", 100)],
          removeFails := [],
          locks := [] }) := rfl

/-- C2: a successful reconcile (pending records present and readable, both
locks acquired) deletes every pending-record file, leaves the registry
file existing (rewritten to the merged mapping), and produces a registry
whose key set is the union of the prior keys and the pending paths, the
pending records winning every key collision. -/
theorem reconcile_success_spec (fs : FS) (R : List (String × StoredEntry))
    (rest : List Bool)
    (hp : fs.pendings ≠ [])
    (hw : ∀ nc ∈ fs.pendings, wfPendingB fs.artifacts nc = true)
    (hreg : fs.registry = some R)
    (hlk : fs.locks = true :: true :: rest) :
    ∃ merged fs',
      resolve_pending_paths fs = .ok (some merged, fs') ∧
      fs'.pendings = [] ∧
      fs'.registry = some (merged.map fun kv => (kv.1, storeEntry kv.2)) ∧
      (∀ p, (dget p merged).isSome
        ↔ ((dget p R).isSome ∨ (lastRecFor p fs.pendings).isSome)) ∧
      (∀ p r, lastRecFor p fs.pendings = some r →
        dget p merged = some (stampPending fs.artifacts r)) := by
  have h := resolve_merge_spec fs R true rest hp hw hreg hlk
  rw [if_pos rfl] at h
  refine ⟨_, _, h, rfl, rfl, ?_, ?_⟩
  · intro p
    rw [dget_merged]
    cases hl : lastRecFor p fs.pendings with
    | some r => simp
    | none =>
      cases hd : dget p R with
      | none => simp
      | some se => simp
  · intro p r hl
    rw [dget_merged, hl]
    rfl

/-- Witness for `reconcile_success_spec` at a one-pending-record world. -/
theorem reconcile_success_spec_witness :
    (fsMergeW.pendings ≠ [] ∧
      (∀ nc ∈ fsMergeW.pendings, wfPendingB fsMergeW.artifacts nc = true) ∧
      fsMergeW.registry = some [("/r1", rE)] ∧
      fsMergeW.locks = true :: true :: []) ∧
    (∃ merged fs',
      resolve_pending_paths fsMergeW = .ok (some merged, fs') ∧
      fs'.pendings = [] ∧
      fs'.registry = some (merged.map fun kv => (kv.1, storeEntry kv.2)) ∧
      (∀ p, (dget p merged).isSome
        ↔ ((dget p [("/r1", rE)]).isSome ∨ (lastRecFor p fsMergeW.pendings).isSome)) ∧
      (∀ p r, lastRecFor p fsMergeW.pendings = some r →
        dget p merged = some (stampPending fsMergeW.artifacts r))) :=
  ⟨⟨by decide, by decide, rfl, rfl⟩,
    reconcile_success_spec fsMergeW [("/r1", rE)] [] (by decide) (by decide) rfl rfl⟩

/-- C10: when several pending records carry the same path key, a successful
reconcile stores the record of the pending file that `glob` enumeration
order lists last — collision resolution depends only on that order, not on
the records' creation times or any other field. -/
theorem reconcile_enumeration_order_wins (fs : FS) (R : List (String × StoredEntry))
    (rest : List Bool) (p : String) (r : PendingRec)
    (hp : fs.pendings ≠ [])
    (hw : ∀ nc ∈ fs.pendings, wfPendingB fs.artifacts nc = true)
    (hreg : fs.registry = some R)
    (hlk : fs.locks = true :: true :: rest)
    (hlast : lastRecFor p fs.pendings = some r) :
    ∃ merged fs',
      resolve_pending_paths fs = .ok (some merged, fs') ∧
      dget p merged = some (stampPending fs.artifacts r) := by
  have h := resolve_merge_spec fs R true rest hp hw hreg hlk
  rw [if_pos rfl] at h
  refine ⟨_, _, h, ?_⟩
  rw [dget_merged, hlast]
  rfl

/-- Witness for `reconcile_enumeration_order_wins`: two pending records
both registering `/p1`; the later file's record (`recB`) wins. -/
theorem reconcile_enumeration_order_wins_witness :
    (fsTwoPend.pendings ≠ [] ∧
      (∀ nc ∈ fsTwoPend.pendings, wfPendingB fsTwoPend.artifacts nc = true) ∧
      fsTwoPend.registry = some [("/r1", rE)] ∧
      fsTwoPend.locks = true :: true :: [] ∧
      lastRecFor "/p1" fsTwoPend.pendings = some recB) ∧
    (∃ merged fs',
      resolve_pending_paths fsTwoPend = .ok (some merged, fs') ∧
      dget "/p1" merged = some (stampPending fsTwoPend.artifacts recB)) :=
  ⟨⟨by decide, by decide, rfl, rfl, by decide⟩,
    reconcile_enumeration_order_wins fsTwoPend [("/r1", rE)] [] "/p1" recB
      (by decide) (by decide) rfl rfl (by decide)⟩

/-- C4 (exhibit of the divergence): `info` called with both a non-empty
`paths` selector and a non-empty `pattern` selector does not fail — the
commented-out mutual-exclusion guard means the registry is loaded and the
`paths` selector is applied, the pattern silently ignored, and the call
returns success.  (Its own docstring and `test_info` require the call to
fail with `status = False`.) -/
theorem info_both_selectors_succeeds :
    info fsL ["/you"] (some (.glob [.star, .lit 's', .star])) =
      .ok (some [normEntry youE], true, "Info found", { fsL with locks := [] }) := rfl

/-- Computation of `_load_user_paths` when the lock is acquired. -/
theorem load_user_paths_true (fs : FS) (R : List (String × StoredEntry)) (locks' : List Bool)
    (hreg : fs.registry = some R) (hnl : nextLock fs.locks = (true, locks')) :
    load_user_paths fs =
      (some (R.map fun kv => (kv.1, normEntry kv.2)), { fs with locks := locks' }) := by
  simp only [load_user_paths, hnl, hreg]
  rfl

/-- Computation of `_load_user_paths` when the lock is not acquired. -/
theorem load_user_paths_false (fs : FS) (locks' : List Bool)
    (hnl : nextLock fs.locks = (false, locks')) :
    load_user_paths fs = (none, { fs with locks := locks' }) := by
  simp only [load_user_paths, hnl]
  rfl

/-- C9: every entry of a successfully loaded registry carries a `holding`
normalized to a float: positive infinity when the stored value was the
`'inf'` sentinel (as a string, as the JSON `Infinity` number, or absent),
and the stored finite number otherwise, whether it was stored as a number
or as a numeric string. -/
theorem load_normalizes_holding (fs : FS) (R : List (String × StoredEntry))
    (out : List (String × Entry)) (fs' : FS) (k : String) (e : Entry)
    (hreg : fs.registry = some R)
    (hload : load_user_paths fs = (some out, fs'))
    (hk : dget k out = some e) :
    ∃ se, dget k R = some se ∧ e.holding = pyFloat se.holding ∧
      ((se.holding = .infStr ∨ se.holding = .absent ∨ se.holding = .num .inf) →
        e.holding = .inf) ∧
      (∀ x, (se.holding = .num (.fin x) ∨ se.holding = .numStr x) → e.holding = .fin x) := by
  cases hnl : nextLock fs.locks with
  | mk lk locks' =>
    cases lk with
    | false =>
      rw [load_user_paths_false fs locks' hnl] at hload
      exact absurd (congrArg Prod.fst hload) (by simp)
    | true =>
      rw [load_user_paths_true fs R locks' hreg hnl] at hload
      have hout : out = R.map fun kv => (kv.1, normEntry kv.2) := by
        have h1 := congrArg Prod.fst hload
        simpa using h1.symm
      rw [hout, dget_map_val] at hk
      cases hd : dget k R with
      | none => rw [hd] at hk; simp at hk
      | some se =>
        rw [hd] at hk
        simp at hk
        refine ⟨se, rfl, ?_, ?_, ?_⟩
        · rw [← hk]; rfl
        · rintro (hh | hh | hh) <;> rw [← hk, normEntry] <;> simp [hh, pyFloat]
        · rintro x (hh | hh) <;> rw [← hk, normEntry] <;> simp [hh, pyFloat]

/-- Witness for `load_normalizes_holding` at the three-entry registry
(entry `/you`, holding stored as the number 0). -/
theorem load_normalizes_holding_witness :
    (fsL.registry = some regThree ∧
      load_user_paths fsL =
        (some [("/as", normEntry asE), ("/you", normEntry youE), ("/wish", normEntry wishE)],
          { fsL with locks := [] }) ∧
      dget "/you" [("/as", normEntry asE), ("/you", normEntry youE), ("/wish", normEntry wishE)]
        = some (normEntry youE)) ∧
    (∃ se, dget "/you" regThree = some se ∧
      (normEntry youE).holding = pyFloat se.holding ∧
      ((se.holding = .infStr ∨ se.holding = .absent ∨ se.holding = .num .inf) →
        (normEntry youE).holding = .inf) ∧
      (∀ x, (se.holding = .num (.fin x) ∨ se.holding = .numStr x) →
        (normEntry youE).holding = .fin x)) :=
  ⟨⟨rfl, rfl, by decide⟩,
    load_normalizes_holding fsL regThree
      [("/as", normEntry asE), ("/you", normEntry youE), ("/wish", normEntry wishE)]
      { fsL with locks := [] } "/you" (normEntry youE) rfl rfl (by decide)⟩

/-- Threading of the accumulated message through the per-entry sweep:
`gc_entries` only ever appends to it. -/
theorem gc_entries_msg_extends (now : Int) (fails : List String) :
    ∀ (l : List (String × StoredEntry)) (arts : List (String × Int)) (msg : String),
    ∃ suffix, (gc_entries now fails l arts msg).2.2 = msg ++ suffix := by
  intro l
  induction l with
  | nil =>
    intro arts msg
    exact ⟨"", (String.append_empty msg).symm⟩
  | cons kv rest ih =>
    intro arts msg
    obtain ⟨k, e⟩ := kv
    rw [gc_entries]
    by_cases hcond : ((pyFloat e.holding).expired (now - e.created) && isfile arts e.file) = true
    · simp only [hcond, if_true]
      by_cases hin : e.file ∈ fails
      · rw [if_pos hin]
        obtain ⟨s, hs⟩ := ih arts
          (msg ++ osErrStr e.file ++ "\nCould not delete file " ++ e.file ++ "\n\n")
        refine ⟨osErrStr e.file ++ "\nCould not delete file " ++ e.file ++ "\n\n" ++ s, ?_⟩
        rw [hs]
        simp [String.append_assoc]
      · rw [if_neg hin]
        obtain ⟨s, hs⟩ := ih (removeArt e.file arts) msg
        cases hge : gc_entries now fails rest (removeArt e.file arts) msg with
        | mk dels r2 =>
          obtain ⟨arts1, msg1⟩ := r2
          rw [hge] at hs
          exact ⟨s, hs⟩
    · have hcf : ((pyFloat e.holding).expired (now - e.created) && isfile arts e.file) = false :=
        eq_false_of_ne_true hcond
      simp only [hcf, Bool.false_eq_true, if_false]
      exact ih arts msg

/-- Threading of the accumulated message through one file's sweep. -/
theorem gc_file_msg_extends (now : Int) (fails : List String)
    (paths : List (String × StoredEntry)) (arts : List (String × Int)) (msg : String) :
    ∃ suffix, (gc_file now fails paths arts msg).2.2.1 = msg ++ suffix := by
  obtain ⟨s, hs⟩ := gc_entries_msg_extends now fails paths arts msg
  refine ⟨s, ?_⟩
  rw [gc_file]
  cases hge : gc_entries now fails paths arts msg with
  | mk dels r2 =>
    obtain ⟨arts1, msg1⟩ := r2
    rw [hge] at hs
    simp only
    by_cases hd : dels.isEmpty = true
    · rw [if_pos hd]
      exact hs
    · rw [if_neg hd]
      exact hs

/-- Threading of the accumulated message through the whole sweep:
`gc_files` only ever appends to it (for any lock outcomes — a failed
acquisition is recorded in the message and the remaining files are still
processed). -/
theorem gc_files_msg_extends (now : Int) (fails : List String) :
    ∀ (files : List (String × List (String × StoredEntry))) (arts : List (String × Int))
      (locks : List Bool) (msg : String),
    ∃ suffix, (gc_files now fails files arts locks msg).2.2 = msg ++ suffix := by
  intro files
  induction files with
  | nil =>
    intro arts locks msg
    exact ⟨"", (String.append_empty msg).symm⟩
  | cons fc rest ih =>
    intro arts locks msg
    obtain ⟨name, c⟩ := fc
    rw [gc_files]
    by_cases hpn : isPendingName name = true
    · rw [if_pos hpn]
      obtain ⟨s, hs⟩ := ih arts locks msg
      cases hgf : gc_files now fails rest arts locks msg with
      | mk out r2 =>
        obtain ⟨arts1, msgF⟩ := r2
        rw [hgf] at hs
        exact ⟨s, hs⟩
    · rw [if_neg hpn]
      cases hnl : nextLock locks with
      | mk lk locks' =>
        cases lk with
        | true =>
          simp only
          rw [if_true]
          obtain ⟨s1, hs1⟩ := gc_file_msg_extends now fails c arts msg
          cases hgfile : gc_file now fails c arts msg with
          | mk paths1 r2 =>
            obtain ⟨arts1, r3⟩ := r2
            obtain ⟨msg1, wrote⟩ := r3
            rw [hgfile] at hs1
            obtain ⟨s2, hs2⟩ := ih arts1 locks' msg1
            refine ⟨s1 ++ s2, ?_⟩
            show (gc_files now fails rest arts1 locks' msg1).2.2 = msg ++ (s1 ++ s2)
            have h1 : msg1 = msg ++ s1 := hs1
            rw [hs2, h1, String.append_assoc]
        | false =>
          simp only
          rw [if_neg (by decide : ¬ (false = true))]
          obtain ⟨s, hs⟩ := ih arts locks' (msg ++ name ++ " could not be loaded\n\n")
          refine ⟨name ++ " could not be loaded\n\n" ++ s, ?_⟩
          show (gc_files now fails rest arts locks'
            (msg ++ name ++ " could not be loaded\n\n")).2.2 = _
          rw [hs]
          simp [String.append_assoc]

/-- C7 (amended): provided every pending-record file is well-formed
(readable JSON, a `holding` key, an existing referenced artifact), each
operation that reconciles — `resolve_pending_paths`, `listpaths`, `info`,
`_ensure_file`, `fetch` (with either payload mode), and `delete` —
returns its tri-part Python value and no exception escapes; expected
failures such as an unacquired lock, an unknown path, or an unreadable
artifact come back as failure outcomes.  `gc` likewise returns its
two-part outcome for every input, reporting success exactly when its
accumulated message is empty, and converts a lock-acquisition failure
into a recorded message — the file is left untouched and the sweep goes
on — rather than a fault.  A malformed pending file, or a pending record
whose referenced artifact is absent, instead raises an exception that
escapes through every reconciling operation (see the counterexample). -/
theorem operations_return_outcomes (fs : FS) (pat : Option GPattern)
    (pathsSel : List String) (p : String) (simsDir : String)
    (contents : List (String × String)) (u : Bool) (now : Int) (w : GCFS)
    (hw : ∀ nc ∈ fs.pendings, wfPendingB fs.artifacts nc = true) :
    (∃ t, resolve_pending_paths fs = .ok t) ∧
    (∃ t, listpaths fs pat = .ok t) ∧
    (∃ t, info fs pathsSel pat = .ok t) ∧
    (∃ t, ensure_file fs p = .ok t) ∧
    (∃ t, fetch simsDir contents fs p u = .ok t) ∧
    (∃ t, delete fs p = .ok t) ∧
    ((gc now w).status = true ↔ (gc now w).msg = "") ∧
    (∀ name c rest lrest, w.files = (name, c) :: rest → isPendingName name = false →
      w.locks = false :: lrest →
      (∃ suffix, (gc now w).msg = (name ++ " could not be loaded\n\n") ++ suffix) ∧
      (gc now w).files.head? = some (name, c)) := by
  obtain ⟨⟨o, fs'⟩, hres⟩ := resolve_ok_of_wf fs hw
  have hens : ∃ t, ensure_file fs p = .ok t := by
    cases o with
    | none => exact ⟨_, by rw [ensure_file, hres]⟩
    | some userpaths =>
      cases hd : dget p userpaths with
      | none => exact ⟨_, by simp only [ensure_file, hres, hd]; rfl⟩
      | some einfo =>
        by_cases hf : einfo.file = ""
        · exact ⟨_, by simp only [ensure_file, hres, hd]; rw [if_pos hf]⟩
        · cases hisf : isfile fs'.artifacts einfo.file with
          | true => exact ⟨_, by
              simp only [ensure_file, hres, hd]; rw [if_neg hf]
              simp only [hisf]; rfl⟩
          | false => exact ⟨_, by
              simp only [ensure_file, hres, hd]; rw [if_neg hf]
              simp only [hisf]; rfl⟩
  obtain ⟨⟨er, fse⟩, hef⟩ := hens
  refine ⟨⟨_, hres⟩, ?_, ?_, ⟨_, hef⟩, ?_, ?_, ?_, ?_⟩
  · cases o with
    | none => exact ⟨_, by rw [listpaths, hres]⟩
    | some infos =>
      cases pat with
      | none => exact ⟨_, by rw [listpaths, hres]⟩
      | some gp =>
        cases gp with
        | malformed => exact ⟨_, by rw [listpaths, hres]⟩
        | glob g => exact ⟨_, by rw [listpaths, hres]⟩
  · cases o with
    | none => exact ⟨_, by rw [info, hres]⟩
    | some userpaths =>
      cases hsel : pathsSel.isEmpty with
      | false => exact ⟨_, by rw [info, hres]; simp only [hsel]; rfl⟩
      | true =>
        cases pat with
        | none => exact ⟨_, by rw [info, hres]; simp only [hsel]; rfl⟩
        | some gp =>
          cases gp with
          | malformed => exact ⟨_, by rw [info, hres]; simp only [hsel]; rfl⟩
          | glob g => exact ⟨_, by rw [info, hres]; simp only [hsel]; rfl⟩
  · cases er with
    | inl msg => exact ⟨_, by rw [fetch, hef]⟩
    | inr fu =>
      obtain ⟨filename, userpaths⟩ := fu
      cases u with
      | true => exact ⟨_, by simp only [fetch, hef]; rfl⟩
      | false =>
        cases hb : dget filename contents with
        | some b => exact ⟨_, by
            simp only [fetch, hef, fetch_bytes, hb]; rfl⟩
        | none => exact ⟨_, by
            simp only [fetch, hef, fetch_bytes, hb]; rfl⟩
  · cases er with
    | inl msg => exact ⟨_, by rw [delete, hef]⟩
    | inr fu =>
      obtain ⟨filename, userpaths⟩ := fu
      by_cases hrf : filename ∈ fse.removeFails
      · exact ⟨_, by simp only [delete, hef]; rw [if_pos hrf]⟩
      · cases hdp : dump_user_paths
            (userpaths.filter fun kv => decide (kv.1 ≠ p))
            { fse with artifacts := removeArt filename fse.artifacts } with
        | mk okd fs2 =>
          cases okd with
          | true => exact ⟨_, by
              simp only [delete, hef]; rw [if_neg hrf]; simp only [hdp]; rfl⟩
          | false => exact ⟨_, by
              simp only [delete, hef]; rw [if_neg hrf]; simp only [hdp]; rfl⟩
  · cases hgf : gc_files now w.removeFails w.files w.artifacts w.locks "" with
    | mk out r2 =>
      obtain ⟨arts1, msgF⟩ := r2
      have hst : (gc now w).status = decide (msgF = "") := by rw [gc, hgf]
      have hms : (gc now w).msg = msgF := by rw [gc, hgf]
      rw [hst, hms, decide_eq_true_iff]
  · intro name c rest lrest hwf hpn hwl
    cases hgf : gc_files now w.removeFails rest w.artifacts lrest
        ("" ++ name ++ " could not be loaded\n\n") with
    | mk out r2 =>
      obtain ⟨arts1, msgF⟩ := r2
      have hstep : gc_files now w.removeFails w.files w.artifacts w.locks ""
          = ((name, c, false) :: out, arts1, msgF) := by
        rw [hwf, hwl, gc_files]
        simp only [hpn, Bool.false_eq_true, if_false]
        simp only [nextLock]
        simp only [Bool.false_eq_true, if_false]
        rw [hgf]
      obtain ⟨s, hs⟩ := gc_files_msg_extends now w.removeFails rest w.artifacts lrest
        ("" ++ name ++ " could not be loaded\n\n")
      rw [hgf] at hs
      constructor
      · refine ⟨s, ?_⟩
        have hms : (gc now w).msg = msgF := by rw [gc, hstep]
        have hs2 : msgF = ("" ++ name ++ " could not be loaded\n\n") ++ s := hs
        rw [hms, hs2]
        simp [String.empty_append]
      · have hfl : (gc now w).files = (name, c) :: out.map fun fcw => (fcw.1, fcw.2.1) := by
          rw [gc, hstep]
          rfl
        rw [hfl]
        rfl

/-- Witness for `operations_return_outcomes` at the one-pending world,
with the `gc` conjuncts instantiated at the lock-failure world. -/
theorem operations_return_outcomes_witness :
    (∀ nc ∈ fsMergeW.pendings, wfPendingB fsMergeW.artifacts nc = true) ∧
    ((∃ t, resolve_pending_paths fsMergeW = .ok t) ∧
     (∃ t, listpaths fsMergeW none = .ok t) ∧
     (∃ t, info fsMergeW [] none = .ok t) ∧
     (∃ t, ensure_file fsMergeW "/p1" = .ok t) ∧
     (∃ t, fetch "sims" [("a1", "as you wish")] fsMergeW "/p1" false = .ok t) ∧
     (∃ t, delete fsMergeW "/p1" = .ok t) ∧
     ((gc 2000 gcLockFailW).status = true ↔ (gc 2000 gcLockFailW).msg = "") ∧
     (∀ name c rest lrest, gcLockFailW.files = (name, c) :: rest →
        isPendingName name = false → gcLockFailW.locks = false :: lrest →
        (∃ suffix, (gc 2000 gcLockFailW).msg
          = (name ++ " could not be loaded\n\n") ++ suffix) ∧
        (gc 2000 gcLockFailW).files.head? = some (name, c))) :=
  ⟨by decide,
    operations_return_outcomes fsMergeW none [] "/p1" "sims" [("a1", "as you wish")]
      false 2000 gcLockFailW (by decide)⟩

/-- C7 counterexample: a malformed pending file makes `json.load` raise
inside `resolve_pending_paths` and the exception escapes through
`listpaths` and `fetch` alike; likewise a pending record whose referenced
artifact is absent makes `os.stat` raise — none of these is converted
into the tri-part failure shape. -/
theorem listpaths_escaping_exception_cex :
    listpaths fsMal none = .error .jsonError ∧
    listpaths fsStat none = .error .statError ∧
    fetch "sims" [] fsMal "/p1" false = .error .jsonError ∧
    fetch "sims" [] fsStat "/p1" true = .error .statError := ⟨rfl, rfl, rfl, rfl⟩

/-! ## `delete` lemmas -/

theorem hasSub_append_right (n : List Char) :
    ∀ (a b : List Char), hasSub n b = true → hasSub n (a ++ b) = true := by
  intro a
  induction a with
  | nil => intro b h; simpa using h
  | cons c rest ih =>
    intro b h
    simp only [List.cons_append, hasSub, Bool.or_eq_true]
    exact Or.inr (ih b h)

theorem strHasSub_append (n pre suf : String) (h : hasSub n.toList suf.toList = true) :
    strHasSub n (pre ++ suf) = true := by
  have hd : (pre ++ suf).toList = pre.toList ++ suf.toList := String.data_append pre suf
  rw [strHasSub, hd]
  exact hasSub_append_right n.toList pre.toList suf.toList h

/-- The resolution performed by `delete` via `_ensure_file` when there are
no pending files, the load lock is acquired, and the path resolves to an
existing, non-empty backing artifact. -/
theorem ensure_file_resolves (fs : FS) (R : List (String × StoredEntry))
    (lks : List Bool) (path : String) (se : StoredEntry)
    (hpend : fs.pendings = [])
    (hreg : fs.registry = some R)
    (hlk : fs.locks = true :: lks)
    (hdg : dget path R = some se)
    (hfile : se.file ≠ "")
    (hisf : isfile fs.artifacts se.file = true) :
    ensure_file fs path =
      .ok (.inr (se.file, R.map fun kv => (kv.1, normEntry kv.2)),
        { fs with locks := lks }) := by
  have hres : resolve_pending_paths fs = .ok (load_user_paths fs) := by
    rw [resolve_pending_paths, hpend]
    rfl
  rw [load_user_paths_true fs R lks hreg (by rw [hlk]; rfl)] at hres
  simp only [ensure_file, hres, dget_map_val, hdg, Option.map_some']
  have hnf : (normEntry se).file = se.file := rfl
  rw [hnf, if_neg hfile]
  have hart : ({ fs with locks := lks } : FS).artifacts = fs.artifacts := rfl
  rw [hart, hisf]
  rfl

/-- C5 (amended): over a registry entry with an existing backing artifact,
`delete` removes the artifact first and only then removes the entry and
dumps.  If the artifact removal raises, nothing has been touched and a
failure is reported.  If the artifact removal succeeds and the dump lock
is acquired, the artifact is gone and the registry is rewritten without
the entry.  If the dump fails after the successful removal, the artifact
is gone but the registry file still lists the entry — a detectable
inconsistent state — and the failure message contains the source's exact
wording "system is in inconsistent state" (the spec's quoted wording
"system is in an inconsistent state" does not occur; see the
counterexample). -/
theorem delete_spec (fs : FS) (R : List (String × StoredEntry))
    (lk2 : Bool) (rest : List Bool) (path : String) (se : StoredEntry)
    (hpend : fs.pendings = [])
    (hreg : fs.registry = some R)
    (hlk : fs.locks = true :: lk2 :: rest)
    (hdg : dget path R = some se)
    (hfile : se.file ≠ "")
    (hisf : isfile fs.artifacts se.file = true) :
    (se.file ∈ fs.removeFails →
      delete fs path =
        .ok (false, osErrStr se.file ++ "\n\n" ++ "Could not remove path " ++ path,
          { fs with locks := lk2 :: rest })) ∧
    (se.file ∉ fs.removeFails → lk2 = true →
      delete fs path =
        .ok (true, "File removed",
          { fs with
            registry := some ((((R.map fun kv => (kv.1, normEntry kv.2)).filter
                fun kv => decide (kv.1 ≠ path)).map fun kv => (kv.1, storeEntry kv.2))),
            artifacts := removeArt se.file fs.artifacts,
            locks := rest })) ∧
    (se.file ∉ fs.removeFails → lk2 = false →
      delete fs path =
        .ok (false,
          "Removed file " ++ pyrepr se.file ++ " but could not remove path entry "
            ++ pyrepr path ++ ", system is in inconsistent state.",
          { fs with
            artifacts := removeArt se.file fs.artifacts,
            locks := rest }) ∧
      strHasSub "system is in inconsistent state"
        ("Removed file " ++ pyrepr se.file ++ " but could not remove path entry "
          ++ pyrepr path ++ ", system is in inconsistent state.") = true) := by
  have hef := ensure_file_resolves fs R (lk2 :: rest) path se hpend hreg hlk hdg hfile hisf
  have hrf : ({ fs with locks := lk2 :: rest } : FS).removeFails = fs.removeFails := rfl
  refine ⟨?_, ?_, ?_⟩
  · intro hin
    simp only [delete, hef]
    rw [if_pos (by rw [hrf]; exact hin)]
  · intro hnin hlk2
    subst hlk2
    simp only [delete, hef]
    rw [if_neg (by rw [hrf]; exact hnin)]
    rfl
  · intro hnin hlk2
    subst hlk2
    refine ⟨?_, ?_⟩
    · simp only [delete, hef]
      rw [if_neg (by rw [hrf]; exact hnin)]
      rfl
    · exact strHasSub_append _
        ("Removed file " ++ pyrepr se.file ++ " but could not remove path entry " ++ pyrepr path)
        ", system is in inconsistent state." (by decide)

/-- Witness for `delete_spec` at the dump-failure world `fsDel`. -/
theorem delete_spec_witness :
    (fsDel.pendings = [] ∧
      fsDel.registry = some [("/as", asE)] ∧
      fsDel.locks = true :: false :: [] ∧
      dget "/as" [("/as", asE)] = some asE ∧
      asE.file ≠ "" ∧
      isfile fsDel.artifacts asE.file = true) ∧
    ((asE.file ∈ fsDel.removeFails →
      delete fsDel "/as" =
        .ok (false, osErrStr asE.file ++ "\n\n" ++ "Could not remove path " ++ "/as",
          { fsDel with locks := false :: [] })) ∧
    (asE.file ∉ fsDel.removeFails → false = true →
      delete fsDel "/as" =
        .ok (true, "File removed",
          { fsDel with
            registry := some (((([("/as", asE)].map fun kv => (kv.1, normEntry kv.2)).filter
                fun kv => decide (kv.1 ≠ "/as")).map fun kv => (kv.1, storeEntry kv.2))),
            artifacts := removeArt asE.file fsDel.artifacts,
            locks := [] })) ∧
    (asE.file ∉ fsDel.removeFails → false = false →
      delete fsDel "/as" =
        .ok (false,
          "Removed file " ++ pyrepr asE.file ++ " but could not remove path entry "
            ++ pyrepr "/as" ++ ", system is in inconsistent state.",
          { fsDel with
            artifacts := removeArt asE.file fsDel.artifacts,
            locks := [] }) ∧
      strHasSub "system is in inconsistent state"
        ("Removed file " ++ pyrepr asE.file ++ " but could not remove path entry "
          ++ pyrepr "/as" ++ ", system is in inconsistent state.") = true)) :=
  ⟨⟨rfl, rfl, rfl, by decide, by decide, by decide⟩,
    delete_spec fsDel [("/as", asE)] false [] "/as" asE rfl rfl rfl
      (by decide) (by decide) (by decide)⟩

/-! ## Sorting lemmas -/

theorem lexLe_total : ∀ a b : List Char, lexLe a b = true ∨ lexLe b a = true
  | [], _ => Or.inl rfl
  | _ :: _, [] => Or.inr rfl
  | a :: as, b :: bs => by
    by_cases h1 : a.toNat < b.toNat
    · left; simp [lexLe, h1]
    · by_cases h2 : b.toNat < a.toNat
      · right; simp [lexLe, h2]
      · rcases lexLe_total as bs with h | h
        · left; simp [lexLe, h1, h2, h]
        · right; simp [lexLe, h2, h1, h]

theorem lexLe_trans : ∀ a b c : List Char,
    lexLe a b = true → lexLe b c = true → lexLe a c = true
  | [], _, _ => fun _ _ => rfl
  | a :: as, [], _ => fun h _ => absurd h (by simp [lexLe])
  | _ :: _, _ :: _, [] => fun _ h2 => absurd h2 (by simp [lexLe])
  | a :: as, b :: bs, c :: cs => by
    intro h1 h2
    by_cases hab : a.toNat < b.toNat
    · by_cases hbc : b.toNat < c.toNat
      · simp [lexLe, Nat.lt_trans hab hbc]
      · by_cases hcb : c.toNat < b.toNat
        · rw [lexLe, if_neg hbc, if_pos hcb] at h2
          exact absurd h2 (by simp)
        · have hbceq : b.toNat = c.toNat := Nat.le_antisymm (Nat.le_of_not_lt hcb) (Nat.le_of_not_lt hbc)
          simp [lexLe, hbceq ▸ hab]
    · by_cases hba : b.toNat < a.toNat
      · rw [lexLe, if_neg hab, if_pos hba] at h1
        exact absurd h1 (by simp)
      · have habeq : a.toNat = b.toNat := Nat.le_antisymm (Nat.le_of_not_lt hba) (Nat.le_of_not_lt hab)
        rw [lexLe, if_neg hab, if_neg hba] at h1
        by_cases hbc : b.toNat < c.toNat
        · simp [lexLe, habeq ▸ hbc]
        · by_cases hcb : c.toNat < b.toNat
          · rw [lexLe, if_neg hbc, if_pos hcb] at h2
            exact absurd h2 (by simp)
          · have hbceq : b.toNat = c.toNat := Nat.le_antisymm (Nat.le_of_not_lt hcb) (Nat.le_of_not_lt hbc)
            rw [lexLe, if_neg hbc, if_neg hcb] at h2
            have hac : ¬ a.toNat < c.toNat := by rw [habeq, hbceq]; exact Nat.lt_irrefl _
            have hca : ¬ c.toNat < a.toNat := by rw [habeq, hbceq]; exact Nat.lt_irrefl _
            rw [lexLe, if_neg hac, if_neg hca]
            exact lexLe_trans as bs cs h1 h2

theorem strLe_total (a b : String) : strLe a b = true ∨ strLe b a = true :=
  lexLe_total a.toList b.toList

theorem strLe_trans (a b c : String) (h1 : strLe a b = true) (h2 : strLe b c = true) :
    strLe a c = true :=
  lexLe_trans a.toList b.toList c.toList h1 h2

theorem perm_insSorted {α : Type} (le : α → α → Bool) (x : α) :
    ∀ l : List α, (insSorted le x l).Perm (x :: l) := by
  intro l
  induction l with
  | nil => simp [insSorted]
  | cons y ys ih =>
    rw [insSorted]
    by_cases h : le x y
    · rw [if_pos h]
    · rw [if_neg h]
      exact (ih.cons y).trans (List.Perm.swap x y ys)

theorem perm_pySorted {α : Type} (le : α → α → Bool) :
    ∀ l : List α, (pySorted le l).Perm l := by
  intro l
  induction l with
  | nil => simp [pySorted]
  | cons x xs ih =>
    rw [pySorted]
    exact (perm_insSorted le x (pySorted le xs)).trans (ih.cons x)

theorem mem_insSorted {α : Type} (le : α → α → Bool) (x z : α) (l : List α)
    (h : z ∈ insSorted le x l) : z = x ∨ z ∈ l :=
  List.mem_cons.mp ((perm_insSorted le x l).mem_iff.mp h)

theorem pairwise_insSorted {α : Type} (le : α → α → Bool)
    (htot : ∀ a b, le a b = true ∨ le b a = true)
    (htr : ∀ a b c, le a b = true → le b c = true → le a c = true)
    (x : α) : ∀ l : List α, l.Pairwise (fun a b => le a b = true) →
      (insSorted le x l).Pairwise (fun a b => le a b = true) := by
  intro l
  induction l with
  | nil => intro _; simp [insSorted]
  | cons y ys ih =>
    intro hp
    rw [List.pairwise_cons] at hp
    obtain ⟨hy, hys⟩ := hp
    rw [insSorted]
    by_cases h : le x y
    · rw [if_pos h]
      refine List.Pairwise.cons ?_ (List.Pairwise.cons hy hys)
      intro z hz
      rcases List.mem_cons.mp hz with rfl | hz2
      · exact h
      · exact htr x y z h (hy z hz2)
    · rw [if_neg h]
      refine List.Pairwise.cons ?_ (ih hys)
      intro z hz
      rcases mem_insSorted le x z ys hz with rfl | hz2
      · rcases htot z y with hh | hh
        · exact absurd hh h
        · exact hh
      · exact hy z hz2

theorem pairwise_pySorted {α : Type} (le : α → α → Bool)
    (htot : ∀ a b, le a b = true ∨ le b a = true)
    (htr : ∀ a b c, le a b = true → le b c = true → le a c = true) :
    ∀ l : List α, (pySorted le l).Pairwise (fun a b => le a b = true) := by
  intro l
  induction l with
  | nil => simp [pySorted]
  | cons x xs ih => exact pairwise_insSorted le htot htr x (pySorted le xs) ih

/-- The read-only fast path of `resolve_pending_paths`: no pending files,
lock acquired. -/
theorem resolve_fastpath (fs : FS) (R : List (String × StoredEntry)) (rest : List Bool)
    (hpend : fs.pendings = [])
    (hreg : fs.registry = some R)
    (hlk : fs.locks = true :: rest) :
    resolve_pending_paths fs =
      .ok (some (R.map fun kv => (kv.1, normEntry kv.2)), { fs with locks := rest }) := by
  have hres : resolve_pending_paths fs = .ok (load_user_paths fs) := by
    rw [resolve_pending_paths, hpend]
    rfl
  rw [hres, load_user_paths_true fs R rest hreg (by rw [hlk]; rfl)]

/-- C8: over a loaded registry, `listpaths` with no pattern returns all
key strings in ascending lexicographic order; with a glob pattern it
returns exactly the keys whose full string matches, in the same order; a
malformed pattern is reported as a failure outcome, not raised. -/
theorem listpaths_spec (fs : FS) (R : List (String × StoredEntry)) (rest : List Bool)
    (hpend : fs.pendings = [])
    (hreg : fs.registry = some R)
    (hlk : fs.locks = true :: rest) :
    (∃ ps, listpaths fs none =
        .ok (some ps, true, "Paths listed", { fs with locks := rest }) ∧
      ps.Perm (dkeys R) ∧
      ps.Pairwise (fun a b => strLe a b = true)) ∧
    (∀ g, ∃ qs, listpaths fs (some (.glob g)) =
        .ok (some qs, true, "Paths listed", { fs with locks := rest }) ∧
      qs.Perm ((dkeys R).filter fun k => gmatches g k) ∧
      qs.Pairwise (fun a b => strLe a b = true)) ∧
    (listpaths fs (some .malformed) =
      .ok (none, false, "Could not compile path pattern", { fs with locks := rest })) := by
  have hres := resolve_fastpath fs R rest hpend hreg hlk
  have hks : dkeys (R.map fun kv => (kv.1, normEntry kv.2)) = dkeys R := dkeys_map_val _ _
  refine ⟨?_, ?_, ?_⟩
  · refine ⟨pySorted strLe (dkeys (R.map fun kv => (kv.1, normEntry kv.2))), ?_, ?_, ?_⟩
    · simp only [listpaths, hres]
    · rw [hks]
      exact perm_pySorted strLe (dkeys R)
    · exact pairwise_pySorted strLe strLe_total strLe_trans _
  · intro g
    refine ⟨(pySorted strLe (dkeys (R.map fun kv => (kv.1, normEntry kv.2)))).filter
        (fun p => gmatches g p), ?_, ?_, ?_⟩
    · simp only [listpaths, hres]
    · rw [hks]
      exact (perm_pySorted strLe (dkeys R)).filter _
    · exact List.Pairwise.filter _ (pairwise_pySorted strLe strLe_total strLe_trans _)
  · simp only [listpaths, hres]

/-- Witness for `listpaths_spec` at the three-entry registry. -/
theorem listpaths_spec_witness :
    (fsL.pendings = [] ∧ fsL.registry = some regThree ∧ fsL.locks = true :: []) ∧
    ((∃ ps, listpaths fsL none =
        .ok (some ps, true, "Paths listed", { fsL with locks := [] }) ∧
      ps.Perm (dkeys regThree) ∧
      ps.Pairwise (fun a b => strLe a b = true)) ∧
    (∀ g, ∃ qs, listpaths fsL (some (.glob g)) =
        .ok (some qs, true, "Paths listed", { fsL with locks := [] }) ∧
      qs.Perm ((dkeys regThree).filter fun k => gmatches g k) ∧
      qs.Pairwise (fun a b => strLe a b = true)) ∧
    (listpaths fsL (some .malformed) =
      .ok (none, false, "Could not compile path pattern", { fsL with locks := [] }))) :=
  ⟨⟨rfl, rfl, rfl⟩, listpaths_spec fsL regThree [] rfl rfl rfl⟩

/-- C3 counterexample: in the spec's end-to-end scenario — entries `/as`
(holding inf), `/you` (holding 0) and `/wish` (holding 42), each aged
1000 seconds and each backed by an existing artifact — `gc` does NOT leave
`/wish` untouched: its age 1000 exceeds its holding 42, so its artifact
`f2` is deleted and its entry removed along with `/you`'s.  (The
repository's own `test_gc` only keeps `/wish` because there the artifact
`2.txt` does not exist.) -/
theorem gc_scenario_cex :
    (gc 2000 gcW).files = [("u.json", [("/as", asE)])] ∧
    isfile (gc 2000 gcW).artifacts "f2" = false := ⟨rfl, rfl⟩

/-- C3 (amended): in the end-to-end scenario with every artifact existing,
`gc` deletes the artifacts of both `/you` and `/wish` (each has age 1000
at or above its holding) and removes their entries, leaves `/as`
(infinite holding) untouched, rewrites the registry file once, and
reports success since no per-file deletion failed. -/
theorem gc_scenario_spec :
    gc 2000 gcW =
      { status := true, msg := "",
        files := [("u.json", [("/as", asE)])],
        writes := ["u.json"],
        artifacts := [("f0", 1000)] } := rfl

/-! ## Garbage-collector lemmas -/

theorem dget_removeArt_ne {f g : String} (h : g ≠ f) :
    ∀ arts : List (String × Int), dget g (removeArt f arts) = dget g arts := by
  intro arts
  induction arts with
  | nil => rfl
  | cons a r ih =>
    rw [removeArt, List.filter_cons]
    by_cases haf : a.1 = f
    · have hd : decide (a.1 ≠ f) = false := by simp [haf]
      rw [hd]
      simp only [Bool.false_eq_true, if_false]
      rw [removeArt] at ih
      rw [ih]
      have hag : a.1 ≠ g := fun hh => h (by rw [← hh, haf])
      rw [dget, if_neg hag]
    · have hd : decide (a.1 ≠ f) = true := by simp [haf]
      rw [hd]
      simp only [if_true]
      rw [dget, dget]
      by_cases hag : a.1 = g
      · simp [hag]
      · rw [if_neg hag, if_neg hag]
        rw [removeArt] at ih
        exact ih

theorem isfile_removeArt_ne {f g : String} (h : g ≠ f) (arts : List (String × Int)) :
    isfile (removeArt f arts) g = isfile arts g := by
  rw [isfile, isfile, dget_removeArt_ne h]

theorem dget_filter_not_mem {L : List String} {g : String} (h : g ∉ L) :
    ∀ arts : List (String × Int),
    dget g (arts.filter fun a => decide (a.1 ∉ L)) = dget g arts := by
  intro arts
  induction arts with
  | nil => rfl
  | cons a r ih =>
    rw [List.filter_cons]
    by_cases hmem : a.1 ∈ L
    · have hd : decide (a.1 ∉ L) = false := by simp [hmem]
      rw [hd]
      simp only [Bool.false_eq_true, if_false]
      rw [ih]
      have hag : a.1 ≠ g := fun hh => h (hh ▸ hmem)
      rw [dget, if_neg hag]
    · have hd : decide (a.1 ∉ L) = true := by simp [hmem]
      rw [hd]
      simp only [if_true]
      rw [dget, dget]
      by_cases hag : a.1 = g
      · simp [hag]
      · rw [if_neg hag, if_neg hag]
        exact ih

theorem isfile_filter_not_mem {L : List String} {g : String} (h : g ∉ L)
    (arts : List (String × Int)) :
    isfile (arts.filter fun a => decide (a.1 ∉ L)) g = isfile arts g := by
  rw [isfile, isfile, dget_filter_not_mem h]

theorem dget_filter_mem {L : List String} {g : String} (h : g ∈ L) :
    ∀ arts : List (String × Int),
    dget g (arts.filter fun a => decide (a.1 ∉ L)) = none := by
  intro arts
  induction arts with
  | nil => rfl
  | cons a r ih =>
    rw [List.filter_cons]
    by_cases hmem : a.1 ∈ L
    · have hd : decide (a.1 ∉ L) = false := by simp [hmem]
      rw [hd]
      simp only [Bool.false_eq_true, if_false]
      exact ih
    · have hd : decide (a.1 ∉ L) = true := by simp [hmem]
      rw [hd]
      simp only [if_true]
      rw [dget]
      have hag : a.1 ≠ g := fun hh => hmem (hh ▸ h)
      rw [if_neg hag]
      exact ih

theorem gcEligB_congr (now : Int) (fails : List String) {arts' arts : List (String × Int)}
    (e : StoredEntry) (h : isfile arts' e.file = isfile arts e.file) :
    gcEligB now arts' fails e = gcEligB now arts fails e := by
  rw [gcEligB, gcEligB, h]

theorem gcFailB_congr (now : Int) (fails : List String) {arts' arts : List (String × Int)}
    (e : StoredEntry) (h : isfile arts' e.file = isfile arts e.file) :
    gcFailB now arts' fails e = gcFailB now arts fails e := by
  rw [gcFailB, gcFailB, h]

theorem gcErrs_congr (now : Int) (fails : List String) {arts' arts : List (String × Int)} :
    ∀ c : List (String × StoredEntry),
    (∀ kv ∈ c, isfile arts' kv.2.file = isfile arts kv.2.file) →
    gcErrs now arts' fails c = gcErrs now arts fails c := by
  intro c
  induction c with
  | nil => intro _; rfl
  | cons kv rest ih =>
    intro hag
    obtain ⟨k, e⟩ := kv
    rw [gcErrs, gcErrs, gcFailB_congr now fails e (hag (k, e) (by simp)),
      ih fun kv h => hag kv (by simp [h])]

theorem filter_gcEligB_congr (now : Int) (fails : List String)
    {arts' arts : List (String × Int)} (c : List (String × StoredEntry))
    (hag : ∀ kv ∈ c, isfile arts' kv.2.file = isfile arts kv.2.file) :
    c.filter (fun kv => gcEligB now arts' fails kv.2)
      = c.filter (fun kv => gcEligB now arts fails kv.2) :=
  List.filter_congr fun kv hm => gcEligB_congr now fails kv.2 (hag kv hm)

theorem filter_not_gcEligB_congr (now : Int) (fails : List String)
    {arts' arts : List (String × Int)} (c : List (String × StoredEntry))
    (hag : ∀ kv ∈ c, isfile arts' kv.2.file = isfile arts kv.2.file) :
    c.filter (fun kv => !(gcEligB now arts' fails kv.2))
      = c.filter (fun kv => !(gcEligB now arts fails kv.2)) :=
  List.filter_congr fun kv hm => by rw [gcEligB_congr now fails kv.2 (hag kv hm)]

theorem any_gcEligB_congr (now : Int) (fails : List String)
    {arts' arts : List (String × Int)} :
    ∀ c : List (String × StoredEntry),
    (∀ kv ∈ c, isfile arts' kv.2.file = isfile arts kv.2.file) →
    (c.any fun kv => gcEligB now arts' fails kv.2)
      = c.any fun kv => gcEligB now arts fails kv.2 := by
  intro c
  induction c with
  | nil => intro _; rfl
  | cons kv rest ih =>
    intro hag
    rw [List.any_cons, List.any_cons, gcEligB_congr now fails kv.2 (hag kv (by simp)),
      ih fun kv h => hag kv (by simp [h])]

/-- The per-entry sweep characterized relative to the artifact table at
loop entry: removed paths are exactly the eligible entries' paths, the
artifact table loses exactly their files, and the message grows by the
failing entries' messages — provided the entries reference pairwise
distinct files (the invariant of the store: one artifact per entry). -/
theorem gc_entries_spec (now : Int) (fails : List String) :
    ∀ (l : List (String × StoredEntry)) (arts : List (String × Int)) (msg : String),
    (l.map fun kv => kv.2.file).Nodup →
    gc_entries now fails l arts msg =
      ((l.filter fun kv => gcEligB now arts fails kv.2).map Prod.fst,
       arts.filter (fun a =>
         decide (a.1 ∉ (l.filter fun kv => gcEligB now arts fails kv.2).map fun kv => kv.2.file)),
       msg ++ gcErrs now arts fails l) := by
  intro l
  induction l with
  | nil =>
    intro arts msg _
    rw [gc_entries, gcErrs, String.append_empty]
    simp
  | cons kv rest ih =>
    intro arts msg hnd
    obtain ⟨k, e⟩ := kv
    rw [List.map_cons, List.nodup_cons] at hnd
    obtain ⟨hfe, hndr⟩ := hnd
    have hne : ∀ kv ∈ rest, kv.2.file ≠ e.file := by
      intro kv hm hh
      exact hfe (hh ▸ List.mem_map.mpr ⟨kv, hm, rfl⟩)
    by_cases hcond : ((pyFloat e.holding).expired (now - e.created) && isfile arts e.file) = true
    · by_cases hin : e.file ∈ fails
      · have helig : gcEligB now arts fails e = false := by
          rw [gcEligB, hcond]
          simp [hin]
        have hfail : gcFailB now arts fails e = true := by
          rw [gcFailB, hcond]
          simp [hin]
        have hmsg : msg ++ osErrStr e.file ++ "\nCould not delete file " ++ e.file ++ "\n\n"
            = msg ++ gcErrPiece e.file := by
          rw [gcErrPiece]
          simp [String.append_assoc]
        rw [gc_entries]
        simp only [hcond, if_true]
        rw [if_pos hin, hmsg, ih arts (msg ++ gcErrPiece e.file) hndr]
        rw [List.filter_cons_of_neg (by simp [helig]), gcErrs]
        rw [hfail]
        simp [String.append_assoc]
      · have helig : gcEligB now arts fails e = true := by
          rw [gcEligB, hcond]
          simp [hin]
        have hfail : gcFailB now arts fails e = false := by
          rw [gcFailB, hcond]
          simp [hin]
        have hag : ∀ kv ∈ rest, isfile (removeArt e.file arts) kv.2.file = isfile arts kv.2.file :=
          fun kv hm => isfile_removeArt_ne (hne kv hm) arts
        rw [gc_entries]
        simp only [hcond, if_true]
        rw [if_neg hin, ih (removeArt e.file arts) msg hndr]
        rw [filter_gcEligB_congr now fails rest hag, gcErrs_congr now fails rest hag]
        rw [List.filter_cons_of_pos (by simp [helig]), gcErrs]
        rw [hfail]
        refine Prod.ext rfl (Prod.ext ?_ ?_)
        · show (removeArt e.file arts).filter _ = arts.filter _
          rw [removeArt, List.filter_filter]
          refine List.filter_congr fun a _ => ?_
          rw [List.map_cons]
          by_cases h1 : a.1 = e.file
          · simp [h1]
          · by_cases h2 : a.1 ∈ (rest.filter fun kv =>
                gcEligB now arts fails kv.2).map fun kv => kv.2.file
            · simp [h1, h2]
            · simp [h1, h2]
        · show msg ++ gcErrs now arts fails rest = msg ++ ("" ++ gcErrs now arts fails rest)
          rw [String.empty_append]
    · have hcf : ((pyFloat e.holding).expired (now - e.created) && isfile arts e.file) = false :=
        eq_false_of_ne_true hcond
      have helig : gcEligB now arts fails e = false := by
        rw [gcEligB, hcf]
        simp
      have hfail : gcFailB now arts fails e = false := by
        rw [gcFailB, hcf]
        simp
      rw [gc_entries]
      simp only [hcf, Bool.false_eq_true, if_false]
      rw [ih arts msg hndr]
      rw [List.filter_cons_of_neg (by simp [helig]), gcErrs]
      rw [hfail]
      simp [String.empty_append]

theorem key_unique {α : Type} :
    ∀ (l : List (String × α)), (dkeys l).Nodup →
    ∀ kv kv', kv ∈ l → kv' ∈ l → kv.1 = kv'.1 → kv = kv' := by
  intro l
  induction l with
  | nil => intro _ kv kv' hm; exact absurd hm (by simp)
  | cons a r ih =>
    intro hnd kv kv' hm hm' hk
    obtain ⟨k₁, v₁⟩ := a
    rw [dkeys_cons, List.nodup_cons] at hnd
    obtain ⟨ha, hr⟩ := hnd
    have hmem : ∀ z : String × α, z ∈ r → z.1 ∈ dkeys r := fun z hz => by
      simp only [dkeys]
      exact List.mem_map.mpr ⟨z, hz, rfl⟩
    rcases List.mem_cons.mp hm with rfl | hm2
    · rcases List.mem_cons.mp hm' with rfl | hm2'
      · rfl
      · exact absurd (by rw [show k₁ = kv'.1 from hk]; exact hmem kv' hm2') ha
    · rcases List.mem_cons.mp hm' with rfl | hm2'
      · exact absurd (by rw [show k₁ = kv.1 from hk.symm]; exact hmem kv hm2) ha
      · exact ih hr kv kv' hm2 hm2' hk

/-- Membership of a key in the removal set is exactly the eligibility of
its (unique) entry. -/
theorem mem_dels_iff (now : Int) (arts : List (String × Int)) (fails : List String)
    (paths : List (String × StoredEntry)) (hkeys : (dkeys paths).Nodup)
    (kv : String × StoredEntry) (hm : kv ∈ paths) :
    kv.1 ∈ (paths.filter fun kv' => gcEligB now arts fails kv'.2).map Prod.fst
      ↔ gcEligB now arts fails kv.2 = true := by
  constructor
  · intro h
    obtain ⟨kv', hm', hfst⟩ := List.mem_map.mp h
    rw [List.mem_filter] at hm'
    have heq : kv' = kv := key_unique paths hkeys kv' kv hm'.1 hm hfst
    exact heq ▸ hm'.2
  · intro h
    exact List.mem_map.mpr ⟨kv, List.mem_filter.mpr ⟨hm, h⟩, rfl⟩

/-- One registry file's sweep: the surviving content is exactly the
non-eligible entries, the file is rewritten exactly when some entry was
eligible, and artifacts and message change as in `gc_entries_spec`. -/
theorem gc_file_spec (now : Int) (fails : List String)
    (paths : List (String × StoredEntry)) (arts : List (String × Int)) (msg : String)
    (hnd : (paths.map fun kv => kv.2.file).Nodup)
    (hkeys : (dkeys paths).Nodup) :
    gc_file now fails paths arts msg =
      (paths.filter (fun kv => !(gcEligB now arts fails kv.2)),
       arts.filter (fun a =>
         decide (a.1 ∉ (paths.filter fun kv => gcEligB now arts fails kv.2).map fun kv => kv.2.file)),
       msg ++ gcErrs now arts fails paths,
       paths.any fun kv => gcEligB now arts fails kv.2) := by
  rw [gc_file, gc_entries_spec now fails paths arts msg hnd]
  by_cases hany : (paths.any fun kv => gcEligB now arts fails kv.2) = true
  · have hdne : ((paths.filter fun kv => gcEligB now arts fails kv.2).map Prod.fst).isEmpty = false := by
      obtain ⟨kv, hm, hp⟩ := List.any_eq_true.mp hany
      cases hfil : paths.filter (fun kv => gcEligB now arts fails kv.2) with
      | nil => exact absurd (List.filter_eq_nil_iff.mp hfil kv hm) (by simp [hp])
      | cons x xs => simp [hfil]
    rw [hany]
    simp only [hdne, Bool.false_eq_true, if_false]
    refine Prod.ext ?_ (Prod.ext rfl (Prod.ext rfl rfl))
    show paths.filter _ = paths.filter _
    refine List.filter_congr fun kv hm => ?_
    have hiff := mem_dels_iff now arts fails paths hkeys kv hm
    by_cases hel : gcEligB now arts fails kv.2 = true
    · simp [hel, hiff.mpr hel]
    · have hnm : kv.1 ∉ (paths.filter fun kv' => gcEligB now arts fails kv'.2).map Prod.fst :=
        fun hmem => hel (hiff.mp hmem)
      simp [hnm, eq_false_of_ne_true hel]
  · have hfalse : (paths.any fun kv => gcEligB now arts fails kv.2) = false :=
      eq_false_of_ne_true hany
    have hnil : (paths.filter fun kv => gcEligB now arts fails kv.2) = [] :=
      List.filter_eq_nil_iff.mpr (by
        intro kv hm hp
        exact (List.any_eq_false.mp hfalse kv hm) hp)
    have hself : (paths.filter fun kv => !(gcEligB now arts fails kv.2)) = paths :=
      List.filter_eq_self.mpr (by
        intro kv hm
        simp [List.any_eq_false.mp hfalse kv hm])
    rw [hnil, hfalse]
    simp only [List.map_nil, List.isEmpty_nil, if_true, hself]

theorem gcAllErrs_congr (now : Int) (fails : List String)
    {arts' arts : List (String × Int)} :
    ∀ files : List (String × List (String × StoredEntry)),
    (∀ fc ∈ files, ∀ kv ∈ fc.2, isfile arts' kv.2.file = isfile arts kv.2.file) →
    gcAllErrs now arts' fails files = gcAllErrs now arts fails files := by
  intro files
  induction files with
  | nil => intro _; rfl
  | cons fc rest ih =>
    intro hag
    rw [gcAllErrs, gcAllErrs, gcErrs_congr now fails fc.2 (hag fc (by simp)),
      ih fun fc' h kv hkv => hag fc' (by simp [h]) kv hkv]

theorem gcRemovedAll_congr (now : Int) (fails : List String)
    {arts' arts : List (String × Int)} :
    ∀ files : List (String × List (String × StoredEntry)),
    (∀ fc ∈ files, ∀ kv ∈ fc.2, isfile arts' kv.2.file = isfile arts kv.2.file) →
    gcRemovedAll now arts' fails files = gcRemovedAll now arts fails files := by
  intro files
  induction files with
  | nil => intro _; rfl
  | cons fc rest ih =>
    intro hag
    rw [gcRemovedAll, gcRemovedAll] at ih ⊢
    rw [List.map_cons, List.map_cons, List.flatten_cons, List.flatten_cons,
      filter_gcEligB_congr now fails fc.2 (hag fc (by simp)),
      ih fun fc' h kv hkv => hag fc' (by simp [h]) kv hkv]

theorem gcRemovedAll_cons (now : Int) (arts : List (String × Int)) (fails : List String)
    (fc : String × List (String × StoredEntry))
    (rest : List (String × List (String × StoredEntry))) :
    gcRemovedAll now arts fails (fc :: rest)
      = ((fc.2.filter fun kv => gcEligB now arts fails kv.2).map fun kv => kv.2.file)
        ++ gcRemovedAll now arts fails rest := by
  rw [gcRemovedAll, gcRemovedAll, List.map_cons, List.flatten_cons]

/-- The whole sweep (all locks acquired, no pending-named files in the
glob, unique keys per file, pairwise distinct referenced artifacts):
every file's surviving content is its non-eligible entries, the artifact
table loses exactly the eligible entries' files, and the message is the
concatenation of all per-entry failure messages. -/
theorem gc_files_spec (now : Int) (fails : List String) :
    ∀ (files : List (String × List (String × StoredEntry)))
      (arts : List (String × Int)) (locks : List Bool) (msg : String),
    (∀ fc ∈ files, isPendingName fc.1 = false) →
    (∀ b ∈ locks, b = true) →
    (∀ fc ∈ files, (dkeys fc.2).Nodup) →
    ((files.map fun fc => fc.2.map fun kv => kv.2.file).flatten).Nodup →
    gc_files now fails files arts locks msg =
      (files.map fun fc =>
        (fc.1, fc.2.filter (fun kv => !(gcEligB now arts fails kv.2)),
          fc.2.any fun kv => gcEligB now arts fails kv.2),
       arts.filter (fun a => decide (a.1 ∉ gcRemovedAll now arts fails files)),
       msg ++ gcAllErrs now arts fails files) := by
  intro files
  induction files with
  | nil =>
    intro arts locks msg _ _ _ _
    rw [gc_files, gcAllErrs, String.append_empty, gcRemovedAll]
    simp
  | cons fc rest ih =>
    intro arts locks msg hnp hlocks hkeys hnd
    obtain ⟨name, c⟩ := fc
    obtain ⟨locks', hnl, hlocks'⟩ :
        ∃ locks', nextLock locks = (true, locks') ∧ ∀ b ∈ locks', b = true := by
      cases locks with
      | nil => exact ⟨[], rfl, by simp⟩
      | cons b r' =>
        exact ⟨r', by rw [hlocks b (by simp)]; rfl, fun b' hb => hlocks b' (by simp [hb])⟩
    have hname : isPendingName name = false := hnp (name, c) (by simp)
    rw [List.map_cons, List.flatten_cons, List.nodup_append] at hnd
    obtain ⟨hndHead, hndRest, hdisj⟩ := hnd
    have hagree : ∀ fc' ∈ rest, ∀ kv ∈ fc'.2,
        isfile (arts.filter (fun a =>
          decide (a.1 ∉ (c.filter fun kv => gcEligB now arts fails kv.2).map fun kv => kv.2.file)))
          kv.2.file = isfile arts kv.2.file := by
      intro fc' hfc kv hkv
      have hmemRest : kv.2.file ∈ (rest.map fun fc => fc.2.map fun kv => kv.2.file).flatten :=
        List.mem_flatten.mpr ⟨fc'.2.map fun kv => kv.2.file,
          List.mem_map.mpr ⟨fc', hfc, rfl⟩, List.mem_map.mpr ⟨kv, hkv, rfl⟩⟩
      have hnmemHead : kv.2.file ∉ c.map fun kv => kv.2.file :=
        fun hh => hdisj hh hmemRest
      have hnmemRem : kv.2.file ∉ (c.filter fun kv => gcEligB now arts fails kv.2).map
          fun kv => kv.2.file := by
        intro hh
        obtain ⟨kv', hkv', hfst⟩ := List.mem_map.mp hh
        exact hnmemHead (hfst ▸ List.mem_map.mpr ⟨kv', (List.mem_filter.mp hkv').1, rfl⟩)
      exact isfile_filter_not_mem hnmemRem arts
    rw [gc_files]
    simp only [hname, Bool.false_eq_true, if_false]
    rw [hnl]
    simp only [if_true]
    rw [gc_file_spec now fails c arts msg hndHead (hkeys (name, c) (by simp))]
    simp only
    rw [ih (arts.filter (fun a =>
        decide (a.1 ∉ (c.filter fun kv => gcEligB now arts fails kv.2).map fun kv => kv.2.file)))
      locks' (msg ++ gcErrs now arts fails c)
      (fun fc' h => hnp fc' (by simp [h])) hlocks'
      (fun fc' h => hkeys fc' (by simp [h])) hndRest]
    simp only
    refine Prod.ext ?_ (Prod.ext ?_ ?_)
    · show (name, c.filter (fun kv => !(gcEligB now arts fails kv.2)),
          c.any fun kv => gcEligB now arts fails kv.2) :: _ = _
      rw [List.map_cons]
      refine congrArg₂ (· :: ·) rfl ?_
      refine List.map_congr_left fun fc' h => ?_
      rw [filter_not_gcEligB_congr now fails fc'.2 (hagree fc' h),
        any_gcEligB_congr now fails fc'.2 (hagree fc' h)]
    · show (arts.filter _).filter _ = arts.filter _
      rw [gcRemovedAll_congr now fails rest hagree, List.filter_filter]
      refine List.filter_congr fun a _ => ?_
      rw [gcRemovedAll_cons]
      by_cases h1 : a.1 ∈ (c.filter fun kv => gcEligB now arts fails kv.2).map fun kv => kv.2.file
      · simp [h1]
      · by_cases h2 : a.1 ∈ gcRemovedAll now arts fails rest
        · simp [h1, h2]
        · simp [h1, h2]
    · show (msg ++ gcErrs now arts fails c) ++ gcAllErrs now _ fails rest
          = msg ++ gcAllErrs now arts fails ((name, c) :: rest)
      rw [gcAllErrs_congr now fails rest hagree, gcAllErrs, String.append_assoc]

theorem string_append_eq_empty {a b : String} : a ++ b = "" ↔ a = "" ∧ b = "" := by
  constructor
  · intro h
    have hd : a.data ++ b.data = [] := by
      have h2 := congrArg String.data h
      rw [String.data_append] at h2
      exact h2
    have h3 := List.append_eq_nil.mp hd
    exact ⟨String.ext h3.1, String.ext h3.2⟩
  · rintro ⟨rfl, rfl⟩
    rfl

theorem gcErrPiece_ne_empty (f : String) : gcErrPiece f ≠ "" := by
  intro h
  rw [gcErrPiece] at h
  exact absurd (string_append_eq_empty.mp h).2 (by decide)

theorem gcErrs_eq_empty_iff (now : Int) (arts : List (String × Int)) (fails : List String) :
    ∀ c : List (String × StoredEntry),
    (gcErrs now arts fails c = "" ↔ ∀ kv ∈ c, gcFailB now arts fails kv.2 = false) := by
  intro c
  induction c with
  | nil => simp [gcErrs]
  | cons kv rest ih =>
    obtain ⟨k, e⟩ := kv
    rw [gcErrs, string_append_eq_empty]
    constructor
    · rintro ⟨h1, h2⟩
      intro kv hm
      rcases List.mem_cons.mp hm with rfl | hm2
      · by_cases hfb : gcFailB now arts fails e = true
        · rw [if_pos hfb] at h1
          exact absurd h1 (gcErrPiece_ne_empty e.file)
        · exact eq_false_of_ne_true hfb
      · exact ih.mp h2 kv hm2
    · intro hall
      refine ⟨?_, ih.mpr fun kv hm => hall kv (by simp [hm])⟩
      rw [hall (k, e) (by simp)]
      simp

theorem gcAllErrs_eq_empty_iff (now : Int) (arts : List (String × Int)) (fails : List String) :
    ∀ files : List (String × List (String × StoredEntry)),
    (gcAllErrs now arts fails files = ""
      ↔ ∀ fc ∈ files, ∀ kv ∈ fc.2, gcFailB now arts fails kv.2 = false) := by
  intro files
  induction files with
  | nil => simp [gcAllErrs]
  | cons fc rest ih =>
    rw [gcAllErrs, string_append_eq_empty, gcErrs_eq_empty_iff, ih]
    constructor
    · rintro ⟨h1, h2⟩ fc' hm kv hkv
      rcases List.mem_cons.mp hm with rfl | hm2
      · exact h1 kv hkv
      · exact h2 fc' hm2 kv hkv
    · intro hall
      exact ⟨fun kv hkv => hall fc (by simp) kv hkv,
        fun fc' hm kv hkv => hall fc' (by simp [hm]) kv hkv⟩

theorem isfile_filter_mem {L : List String} {g : String} (h : g ∈ L)
    (arts : List (String × Int)) :
    isfile (arts.filter fun a => decide (a.1 ∉ L)) g = false := by
  rw [isfile, dget_filter_mem h]
  rfl

/-- C6: over any registry state (with the store's structural invariants:
no pending-named file in the glob, unique keys per registry file, each
entry referencing its own artifact file) and all locks acquired, `gc`
removes an entry exactly when its age has reached its holding, its
artifact exists, and the deletion succeeds; an infinite holding is never
eligible; a deletion failure leaves the entry in place and a non-empty
message; a registry file is rewritten exactly when it lost at least one
entry; `gc` reports success exactly when the accumulated message is
empty, i.e. when no deletion failed — and every file is processed
regardless of failures at earlier files; deleted entries' artifacts are
gone. -/
theorem gc_full_spec (now : Int) (w : GCFS)
    (hnp : ∀ fc ∈ w.files, isPendingName fc.1 = false)
    (hlocks : ∀ b ∈ w.locks, b = true)
    (hkeys : ∀ fc ∈ w.files, (dkeys fc.2).Nodup)
    (hnd : ((w.files.map fun fc => fc.2.map fun kv => kv.2.file).flatten).Nodup) :
    (gc now w).files = (w.files.map fun fc =>
        (fc.1, fc.2.filter fun kv => !(gcEligB now w.artifacts w.removeFails kv.2))) ∧
    (∀ fc ∈ w.files, ∀ kv ∈ fc.2, pyFloat kv.2.holding = FVal.inf →
      gcEligB now w.artifacts w.removeFails kv.2 = false) ∧
    (∀ fc ∈ w.files, ∀ kv ∈ fc.2, gcFailB now w.artifacts w.removeFails kv.2 = true →
      gcEligB now w.artifacts w.removeFails kv.2 = false ∧ (gc now w).msg ≠ "") ∧
    (gc now w).writes = ((w.files.filter fun fc =>
        fc.2.any fun kv => gcEligB now w.artifacts w.removeFails kv.2).map Prod.fst) ∧
    ((gc now w).status = true ↔
      ∀ fc ∈ w.files, ∀ kv ∈ fc.2, gcFailB now w.artifacts w.removeFails kv.2 = false) ∧
    (∀ fc ∈ w.files, ∀ kv ∈ fc.2, gcEligB now w.artifacts w.removeFails kv.2 = true →
      isfile (gc now w).artifacts kv.2.file = false) := by
  have h := gc_files_spec now w.removeFails w.files w.artifacts w.locks "" hnp hlocks hkeys hnd
  rw [String.empty_append] at h
  have hgc : gc now w =
      { status := decide (gcAllErrs now w.artifacts w.removeFails w.files = ""),
        msg := gcAllErrs now w.artifacts w.removeFails w.files,
        files := ((w.files.map fun fc =>
          (fc.1, fc.2.filter (fun kv => !(gcEligB now w.artifacts w.removeFails kv.2)),
            fc.2.any fun kv => gcEligB now w.artifacts w.removeFails kv.2)).map
              fun fcw => (fcw.1, fcw.2.1)),
        writes := (((w.files.map fun fc =>
          (fc.1, fc.2.filter (fun kv => !(gcEligB now w.artifacts w.removeFails kv.2)),
            fc.2.any fun kv => gcEligB now w.artifacts w.removeFails kv.2)).filter
              fun fcw => fcw.2.2).map fun fcw => fcw.1),
        artifacts := w.artifacts.filter
          (fun a => decide (a.1 ∉ gcRemovedAll now w.artifacts w.removeFails w.files)) } := by
    rw [gc, h]
  refine ⟨?_, ?_, ?_, ?_, ?_, ?_⟩
  · rw [hgc]
    show (w.files.map _).map _ = _
    rw [List.map_map]
    rfl
  · intro fc _ kv _ hinf
    rw [gcEligB, hinf]
    rfl
  · intro fc hfc kv hkv hfb
    constructor
    · rw [gcFailB] at hfb
      simp only [Bool.and_eq_true] at hfb
      obtain ⟨⟨ha, hb⟩, hc⟩ := hfb
      rw [gcEligB, ha, hb, hc]
      rfl
    · rw [hgc]
      intro hempty
      have hall := (gcAllErrs_eq_empty_iff now w.artifacts w.removeFails w.files).mp hempty
      rw [hall fc hfc kv hkv] at hfb
      exact absurd hfb (by simp)
  · rw [hgc]
    show ((w.files.map _).filter _).map _ = _
    rw [List.filter_map, List.map_map]
    rfl
  · rw [hgc]
    show decide (gcAllErrs now w.artifacts w.removeFails w.files = "") = true ↔ _
    rw [decide_eq_true_iff]
    exact gcAllErrs_eq_empty_iff now w.artifacts w.removeFails w.files
  · intro fc hfc kv hkv helig
    rw [hgc]
    show isfile (w.artifacts.filter _) kv.2.file = false
    refine isfile_filter_mem ?_ w.artifacts
    rw [gcRemovedAll]
    exact List.mem_flatten.mpr
      ⟨(fc.2.filter fun kv => gcEligB now w.artifacts w.removeFails kv.2).map fun kv => kv.2.file,
        List.mem_map.mpr ⟨fc, hfc, rfl⟩,
        List.mem_map.mpr ⟨kv, List.mem_filter.mpr ⟨hkv, helig⟩, rfl⟩⟩

/-- Witness for `gc_full_spec` at the three-entry scenario world. -/
theorem gc_full_spec_witness :
    ((∀ fc ∈ gcW.files, isPendingName fc.1 = false) ∧
      (∀ b ∈ gcW.locks, b = true) ∧
      (∀ fc ∈ gcW.files, (dkeys fc.2).Nodup) ∧
      ((gcW.files.map fun fc => fc.2.map fun kv => kv.2.file).flatten).Nodup) ∧
    ((gc 2000 gcW).files = (gcW.files.map fun fc =>
        (fc.1, fc.2.filter fun kv => !(gcEligB 2000 gcW.artifacts gcW.removeFails kv.2))) ∧
    (∀ fc ∈ gcW.files, ∀ kv ∈ fc.2, pyFloat kv.2.holding = FVal.inf →
      gcEligB 2000 gcW.artifacts gcW.removeFails kv.2 = false) ∧
    (∀ fc ∈ gcW.files, ∀ kv ∈ fc.2, gcFailB 2000 gcW.artifacts gcW.removeFails kv.2 = true →
      gcEligB 2000 gcW.artifacts gcW.removeFails kv.2 = false ∧ (gc 2000 gcW).msg ≠ "") ∧
    (gc 2000 gcW).writes = ((gcW.files.filter fun fc =>
        fc.2.any fun kv => gcEligB 2000 gcW.artifacts gcW.removeFails kv.2).map Prod.fst) ∧
    ((gc 2000 gcW).status = true ↔
      ∀ fc ∈ gcW.files, ∀ kv ∈ fc.2, gcFailB 2000 gcW.artifacts gcW.removeFails kv.2 = false) ∧
    (∀ fc ∈ gcW.files, ∀ kv ∈ fc.2, gcEligB 2000 gcW.artifacts gcW.removeFails kv.2 = true →
      isfile (gc 2000 gcW).artifacts kv.2.file = false)) :=
  ⟨⟨by decide, by decide, by decide, by decide⟩,
    gc_full_spec 2000 gcW (by decide) (by decide) (by decide) (by decide)⟩

/-- C5 counterexample: at the concrete dump-failure world the message
`delete` reports is the source's "system is in inconsistent state": the
claim's quoted wording "system is in an inconsistent state" does not
occur in it. -/
theorem delete_inconsistent_wording_cex :
    delete fsDel "/as" =
      .ok (false,
        "Removed file " ++ pyrepr "f0" ++ " but could not remove path entry "
          ++ pyrepr "/as" ++ ", system is in inconsistent state.",
        { fsDel with artifacts := [], locks := [] }) ∧
    strHasSub "system is in an inconsistent state"
      ("Removed file " ++ pyrepr "f0" ++ " but could not remove path entry "
        ++ pyrepr "/as" ++ ", system is in inconsistent state.") = false := ⟨rfl, by decide⟩

end FixiePaths
